import Mathlib

/-!
A shallow embedding of the truenums core (`src/core.ts`): enumeration
construction (`createTruenum`), subset derivation (`subsetTruenum`),
composition (`composeTruenum`), and the label / translation merge helpers.

JavaScript records (plain objects used as string-keyed maps) are modelled as
association lists in insertion order (`Rcd`); property read is first-match
lookup, property write updates in place or appends.  Throwing code is
modelled with `Except JSError`; `JSError.error` stands for `new Error(msg)`
thrown by the library itself, `JSError.typeError` for a `TypeError` raised
by the JavaScript runtime (e.g. `Object.assign` on an undefined target).
-/

/-- A JavaScript record (plain object used as a map): association list of
string keys to values, in property-insertion order. -/
abbrev Rcd (α : Type) := List (String × α)

/-- Property read `r[q]`: first entry whose key equals `q`. -/
def rcdLookup {α : Type} : Rcd α → String → Option α
  | [], _ => none
  | (k, v) :: rest, q => if k = q then some v else rcdLookup rest q

/-- Property write `r[q] = v`: update the existing entry in place, else
append a new entry (JavaScript objects keep first-insertion key order). -/
def rcdSet {α : Type} : Rcd α → String → α → Rcd α
  | [], q, v => [(q, v)]
  | (k, w) :: rest, q, v =>
    if k = q then (k, v) :: rest else (k, w) :: rcdSet rest q v

/-- `Object.hasOwn(r, q)`. -/
def rcdHasOwn {α : Type} (r : Rcd α) (q : String) : Bool :=
  (rcdLookup r q).isSome

/-- `Object.assign(target, source)`: copy every own property of `source`
onto `target`, in entry order. -/
def rcdAssign {α : Type} (target source : Rcd α) : Rcd α :=
  source.foldl (fun acc p => rcdSet acc p.1 p.2) target

/-- The key list of a record (`Object.keys`). -/
def rcdKeys {α : Type} (r : Rcd α) : List String :=
  r.map (fun p => p.1)

/-- A record is well formed when its keys are pairwise distinct, as is
invariantly true of every JavaScript object. -/
def RcdWF {α : Type} (r : Rcd α) : Prop :=
  (rcdKeys r).Nodup

/-- Left-biased choice on optional values (`a` wins when present). -/
def oOr {α : Type} (a b : Option α) : Option α :=
  match a with
  | some x => some x
  | none => b

/-- A JavaScript runtime value, as far as the membership test needs to
distinguish inputs: strings versus every non-string shape. -/
inductive JSValue : Type
  | str (s : String)
  | num (n : Int)
  | boolV (b : Bool)
  | nullV
  | undefV
  | obj
deriving DecidableEq, Repr

/-- `String(x)` on the modelled values (used only in error messages). -/
def jsToString : JSValue → String
  | .str s => s
  | .num n => toString n
  | .boolV b => if b then "true" else "false"
  | .nullV => "null"
  | .undefV => "undefined"
  | .obj => "[object Object]"

/-- A thrown JavaScript exception: `error` is `new Error(msg)` thrown by
the library, `typeError` is a runtime `TypeError`. -/
inductive JSError : Type
  | error (msg : String)
  | typeError (msg : String)
deriving DecidableEq, Repr

/-- `TruenumConfig` (src/core.ts): required `members`, optional `name`,
`labels`, `i18n`. -/
structure TruenumConfig : Type where
  members : List String
  name : Option String := none
  labels : Option (Rcd String) := none
  i18n : Option (Rcd (Rcd String)) := none
deriving DecidableEq, Repr

/-- The runtime data of a constructed `Truenum`: the frozen `keys` array,
the `values` identity map, and the captured config metadata that the
`getLabel` / `getTranslation` closures read. -/
structure Truenum : Type where
  keys : List String
  values : Rcd String
  name : Option String
  labels : Option (Rcd String)
  i18n : Option (Rcd (Rcd String))
deriving DecidableEq, Repr

/-- One step of `new Set(...)` insertion: add `x` unless already present. -/
def jsSetAdd (acc : List String) (x : String) : List String :=
  if x ∈ acc then acc else acc ++ [x]

/-- Insertion loop of `new Set(l)`. -/
def jsSetGo : List String → List String → List String
  | [], acc => acc
  | x :: rest, acc => jsSetGo rest (jsSetAdd acc x)

/-- `[...new Set(l)]`: deduplicate keeping first occurrences, in order. -/
def jsSet (l : List String) : List String :=
  jsSetGo l []

/-- The `keys.reduce((acc, k) => { acc[k] = k; return acc }, {})` loop that
builds the `values` identity map. -/
def buildValues : List String → Rcd String → Rcd String
  | [], acc => acc
  | k :: rest, acc => buildValues rest (rcdSet acc k k)

/-- `createTruenum` (src/core.ts:320): validate uniqueness, then
non-emptiness, then build `keys` and the `values` identity map. -/
def createTruenum (config : TruenumConfig) : Except JSError Truenum :=
  if (jsSet config.members).length ≠ config.members.length then
    .error (.error
      "createTruenum: Duplicate keys found. All enum keys must be unique.")
  else if config.members.length = 0 then
    .error (.error "createTruenum: members[] cannot be empty")
  else
    .ok { keys := config.members
          values := buildValues config.members []
          name := config.name
          labels := config.labels
          i18n := config.i18n }

/-- The `isEnumKey` type guard closed over `values`:
`typeof input === 'string' && Object.hasOwn(values, input)`. -/
def Truenum.isEnumKey (t : Truenum) (input : JSValue) : Bool :=
  match input with
  | .str s => rcdHasOwn t.values s
  | _ => false

/-- The public `is` method; it simply calls `isEnumKey` and, being a total
boolean function, never throws. -/
def Truenum.is (t : Truenum) (input : JSValue) : Bool :=
  t.isEnumKey input

/-- `getLabel`: throws on an invalid key, else `config.labels?.[key]`. -/
def Truenum.getLabel (t : Truenum) (key : String) :
    Except JSError (Option String) :=
  if t.isEnumKey (.str key) then
    .ok (t.labels.bind (fun ls => rcdLookup ls key))
  else
    .error (.error ("getLabel() error: invalid key \"" ++ key ++ "\""))

/-- `getTranslation`: throws on an invalid key, else
`config.i18n?.[key]?.[lang]`. -/
def Truenum.getTranslation (t : Truenum) (key lang : String) :
    Except JSError (Option String) :=
  if t.isEnumKey (.str key) then
    .ok ((t.i18n.bind (fun m => rcdLookup m key)).bind
      (fun r => rcdLookup r lang))
  else
    .error (.error ("getTranslation() error: invalid key \"" ++ key ++
      "\" for lang \"" ++ lang ++ "\""))

/-- `config.labels?.[q]` without the key validation (the value `getLabel`
returns on a valid key). -/
def labelOf (t : Truenum) (q : String) : Option String :=
  t.labels.bind (fun ls => rcdLookup ls q)

/-- `config.i18n?.[q]?.[lang]` without the key validation (the value
`getTranslation` returns on a valid key). -/
def transOf (t : Truenum) (q lang : String) : Option String :=
  (t.i18n.bind (fun m => rcdLookup m q)).bind (fun r => rcdLookup r lang)

/-- `SUPPORTED_LANGS` (src/core.ts:497). -/
def SUPPORTED_LANGS : List String :=
  ["en", "fr", "de", "es", "it", "ja", "ko", "zh"]

/-- The `for (const k of subsetMembers)` loop of `mergeLabels` (and the
identical inner loop of `mergeAllLabels`): copy each defined label of the
source into the accumulator. -/
def mergeLabelsGo (parent : Truenum) :
    List String → Rcd String → Except JSError (Rcd String)
  | [], acc => .ok acc
  | k :: rest, acc =>
    match parent.getLabel k with
    | .error e => .error e
    | .ok none => mergeLabelsGo parent rest acc
    | .ok (some label) => mergeLabelsGo parent rest (rcdSet acc k label)

/-- `mergeLabels` (src/core.ts:449): parent labels restricted to the subset,
then `Object.assign` of the overrides when present. -/
def mergeLabels (parent : Truenum) (subsetMembers : List String)
    (overrideLabels : Option (Rcd String)) : Except JSError (Rcd String) :=
  match mergeLabelsGo parent subsetMembers [] with
  | .error e => .error e
  | .ok finalLabels =>
    match overrideLabels with
    | some ov => .ok (rcdAssign finalLabels ov)
    | none => .ok finalLabels

/-- The `for (const lang of langs)` loop of `mergeTranslations`.  The
target may be `undefined` (it is `finalI18n[k]` at the call sites); the
assignment `target[lang] = translation` on an undefined target raises a
runtime `TypeError`. -/
def mergeTranslationsGo (parent : Truenum) (key : String) :
    List String → Option (Rcd String) → Except JSError (Option (Rcd String))
  | [], target => .ok target
  | lang :: rest, target =>
    match parent.getTranslation key lang with
    | .error e => .error e
    | .ok none => mergeTranslationsGo parent key rest target
    | .ok (some translation) =>
      match target with
      | none => .error (.typeError "Cannot set properties of undefined")
      | some r =>
        mergeTranslationsGo parent key rest (some (rcdSet r lang translation))

/-- `mergeTranslations` (src/core.ts:588): copy the parent's translations
of `key` into `target`, one supported locale at a time. -/
def mergeTranslations (parent : Truenum) (key : String)
    (target : Option (Rcd String)) (langs : List String) :
    Except JSError (Option (Rcd String)) :=
  mergeTranslationsGo parent key langs target

/-- The map-building loop of the i18n baseline (`Object.fromEntries` of
`k ↦ {}` in the source): every listed key mapped to an empty record. -/
def initI18nMapGo : List String → Rcd (Rcd String) → Rcd (Rcd String)
  | [], acc => acc
  | k :: rest, acc => initI18nMapGo rest (rcdSet acc k [])

/-- The source's i18n baseline builder (src/core.ts:692). -/
def initI18nMap (subsetMembers : List String) : Rcd (Rcd String) :=
  initI18nMapGo subsetMembers []

/-- The per-key loop shared by `mergeI18n` and `mergeAllI18n`: read
`finalI18n[k]`, run `mergeTranslations` against it, and (since JavaScript
mutates the looked-up object in place) write the updated record back. -/
def mergeI18nBaseGo (t : Truenum) :
    List String → Rcd (Rcd String) → Except JSError (Rcd (Rcd String))
  | [], finalI18n => .ok finalI18n
  | k :: rest, finalI18n =>
    match mergeTranslations t k (rcdLookup finalI18n k) SUPPORTED_LANGS with
    | .error e => .error e
    | .ok none => mergeI18nBaseGo t rest finalI18n
    | .ok (some r) => mergeI18nBaseGo t rest (rcdSet finalI18n k r)

/-- The override loop shared by `mergeI18n` (src/core.ts:759) and
`applyI18nOverrides` (src/core.ts:643): for each override entry `(k, tr)`,
`Object.assign(finalI18n[k], tr)` — a `TypeError` when `finalI18n[k]` is
undefined, i.e. when `k` is not among the initialized keys. -/
def assignOvGo :
    List (String × Rcd String) → Rcd (Rcd String) →
    Except JSError (Rcd (Rcd String))
  | [], finalI18n => .ok finalI18n
  | (k, translations) :: rest, finalI18n =>
    match rcdLookup finalI18n k with
    | none => .error (.typeError "Cannot convert undefined or null to object")
    | some target => assignOvGo rest (rcdSet finalI18n k (rcdAssign target translations))

/-- `applyI18nOverrides` (src/core.ts:643). -/
def applyI18nOverrides (finalI18n : Rcd (Rcd String))
    (overrideI18n : Option (Rcd (Rcd String))) :
    Except JSError (Rcd (Rcd String)) :=
  match overrideI18n with
  | none => .ok finalI18n
  | some ov => assignOvGo ov finalI18n

/-- `mergeI18n` (src/core.ts:746): baseline of empty records over the
subset, parent translations copied in, then the override entries applied. -/
def mergeI18n (parent : Truenum) (subsetMembers : List String)
    (overrideI18n : Option (Rcd (Rcd String))) :
    Except JSError (Rcd (Rcd String)) :=
  match mergeI18nBaseGo parent subsetMembers (initI18nMap subsetMembers) with
  | .error e => .error e
  | .ok finalI18n =>
    match overrideI18n with
    | none => .ok finalI18n
    | some ov => assignOvGo ov finalI18n

/-- The `for (const k of subsetMembers)` membership check opening
`subsetTruenum`. -/
def subsetValidateGo (parent : Truenum) : List String → Except JSError Unit
  | [] => .ok ()
  | k :: rest =>
    if parent.is (.str k) then subsetValidateGo parent rest
    else
      .error (.error ("subsetTruenum: key \"" ++ k ++
        "\" is not a member of parent."))

/-- `subsetTruenum` (src/core.ts:809): validate membership, merge labels
and i18n from the parent with the overrides, delegate to `createTruenum`. -/
def subsetTruenum (parent : Truenum) (subsetMembers : List String)
    (optName : Option String) (optLabels : Option (Rcd String))
    (optI18n : Option (Rcd (Rcd String))) : Except JSError Truenum :=
  match subsetValidateGo parent subsetMembers with
  | .error e => .error e
  | .ok _ =>
    match mergeLabels parent subsetMembers optLabels with
    | .error e => .error e
    | .ok mergedLabels =>
      match mergeI18n parent subsetMembers optI18n with
      | .error e => .error e
      | .ok mergedI18n =>
        createTruenum { members := subsetMembers
                        name := optName
                        labels := some mergedLabels
                        i18n := some mergedI18n }

/-- `gatherAllKeys` (src/core.ts:877): flatten every source's `keys`. -/
def gatherAllKeys : List Truenum → List String
  | [] => []
  | t :: rest => t.keys ++ gatherAllKeys rest

/-- The outer `for (const t of truenums)` loop of `mergeAllLabels`; its
inner loop is byte-for-byte the first loop of `mergeLabels`, so it reuses
`mergeLabelsGo`. -/
def mergeAllLabelsOuter :
    List Truenum → Rcd String → Except JSError (Rcd String)
  | [], acc => .ok acc
  | t :: rest, acc =>
    match mergeLabelsGo t t.keys acc with
    | .error e => .error e
    | .ok acc' => mergeAllLabelsOuter rest acc'

/-- `mergeAllLabels` (src/core.ts:918): labels from every source in order,
then `Object.assign` of the overrides. -/
def mergeAllLabels (truenums : List Truenum)
    (overrides : Option (Rcd String)) : Except JSError (Rcd String) :=
  match mergeAllLabelsOuter truenums [] with
  | .error e => .error e
  | .ok mergedLabels =>
    match overrides with
    | some ov => .ok (rcdAssign mergedLabels ov)
    | none => .ok mergedLabels

/-- The outer `for (const t of truenums)` loop of `mergeAllI18n`; its inner
per-key body is the same lookup / `mergeTranslations` step as `mergeI18n`'s,
so it reuses `mergeI18nBaseGo`. -/
def mergeAllI18nOuter :
    List Truenum → Rcd (Rcd String) → Except JSError (Rcd (Rcd String))
  | [], acc => .ok acc
  | t :: rest, acc =>
    match mergeI18nBaseGo t t.keys acc with
    | .error e => .error e
    | .ok acc' => mergeAllI18nOuter rest acc'

/-- `mergeAllI18n` (src/core.ts:984). -/
def mergeAllI18n (truenums : List Truenum) (allUniqueKeys : List String)
    (overrides : Option (Rcd (Rcd String))) :
    Except JSError (Rcd (Rcd String)) :=
  match mergeAllI18nOuter truenums (initI18nMap allUniqueKeys) with
  | .error e => .error e
  | .ok mergedI18n => applyI18nOverrides mergedI18n overrides

/-- `composeTruenum` (src/core.ts:1041): reject the empty list, gather and
deduplicate keys, reject duplicates, merge metadata, delegate to
`createTruenum`.  The source's local constants `allKeys` and `dedup` are
written out inline (`gatherAllKeys truenums` and
`jsSet (gatherAllKeys truenums)`). -/
def composeTruenum (truenums : List Truenum) (optName : Option String)
    (optLabels : Option (Rcd String))
    (optI18n : Option (Rcd (Rcd String))) : Except JSError Truenum :=
  if truenums.length = 0 then
    .error (.error "composeTruenum: cannot compose empty array of truenums")
  else if (jsSet (gatherAllKeys truenums)).length ≠
      (gatherAllKeys truenums).length then
    .error (.error "composeTruenum: Duplicate keys found among the truenums")
  else
    match mergeAllLabels truenums optLabels with
    | .error e => .error e
    | .ok mergedLabels =>
      match mergeAllI18n truenums (jsSet (gatherAllKeys truenums)) optI18n with
      | .error e => .error e
      | .ok mergedI18n =>
        createTruenum { members := jsSet (gatherAllKeys truenums)
                        name := optName
                        labels := some mergedLabels
                        i18n := some mergedI18n }

/-- The JavaScript string disjunction `msg || dflt` on an optional string
argument: the empty string is falsy, so it falls through to the default. -/
def jsStringOr (msg : Option String) (dflt : String) : String :=
  match msg with
  | some m => if m = "" then dflt else m
  | none => dflt

/-- `assertExhaustive` (src/core.ts:1163): always throws
`new Error(msg || default)`; the `Empty` result type records that it
never returns. -/
def assertExhaustive (x : JSValue) (msg : Option String) :
    Except JSError Empty :=
  .error (.error (jsStringOr msg ("Non-exhaustive switch reached: " ++
    jsToString x)))

/-- Character-list test: does `l` start with `p`? -/
def startsWithL : List Char → List Char → Bool
  | _, [] => true
  | [], _ :: _ => false
  | c :: cs, p :: ps => c = p && startsWithL cs ps

/-- Character-list test: does `p` occur contiguously inside `l`? -/
def hasInfixL : List Char → List Char → Bool
  | [], p => startsWithL [] p
  | c :: rest, p =>
    if startsWithL (c :: rest) p then true else hasInfixL rest p

/-- Substring test over the underlying character lists. -/
def strContains (s pat : String) : Bool :=
  hasInfixL s.data pat.data

/-! ### Record lemmas -/

theorem oOr_some {α : Type} (x : α) (b : Option α) : oOr (some x) b = some x := rfl

theorem oOr_none {α : Type} (b : Option α) : oOr none b = b := rfl

theorem oOr_none_right {α : Type} (a : Option α) : oOr a none = a := by
  cases a <;> rfl

theorem rcdLookup_rcdSet {α : Type} (r : Rcd α) (q : String) (v : α)
    (q' : String) :
    rcdLookup (rcdSet r q v) q' = if q = q' then some v else rcdLookup r q' := by
  induction r with
  | nil => simp [rcdSet, rcdLookup]
  | cons p rest ih =>
    obtain ⟨k, w⟩ := p
    by_cases hkq : k = q
    · subst hkq
      simp only [rcdSet, if_pos rfl, rcdLookup]
      by_cases h : k = q' <;> simp [h]
    · simp only [rcdSet, if_neg hkq, rcdLookup, ih]
      by_cases h1 : k = q' <;> by_cases h2 : q = q' <;> simp [h1, h2]
      exact absurd (h1.trans h2.symm) hkq

theorem rcdSet_of_lookup_none {α : Type} (r : Rcd α) (q : String) (v : α)
    (h : rcdLookup r q = none) : rcdSet r q v = r ++ [(q, v)] := by
  induction r with
  | nil => simp [rcdSet]
  | cons p rest ih =>
    obtain ⟨k, w⟩ := p
    simp only [rcdLookup] at h
    by_cases hkq : k = q
    · simp [hkq] at h
    · simp only [rcdSet, if_neg hkq, List.cons_append, List.cons.injEq, true_and]
      exact ih (by simpa [hkq] using h)

theorem rcdLookup_append {α : Type} (r s : Rcd α) (q : String) :
    rcdLookup (r ++ s) q = oOr (rcdLookup r q) (rcdLookup s q) := by
  induction r with
  | nil => simp [rcdLookup, oOr]
  | cons p rest ih =>
    obtain ⟨k, w⟩ := p
    by_cases hkq : k = q <;> simp [rcdLookup, hkq, ih, oOr]

theorem rcdLookup_isSome_iff {α : Type} (r : Rcd α) (q : String) :
    (rcdLookup r q).isSome = true ↔ q ∈ rcdKeys r := by
  induction r with
  | nil => simp [rcdLookup, rcdKeys]
  | cons p rest ih =>
    obtain ⟨k, w⟩ := p
    by_cases hkq : k = q <;> simp [rcdLookup, rcdKeys, hkq, ih]
    · exact fun h => absurd h.symm hkq

theorem rcdLookup_eq_none_of_not_mem {α : Type} (r : Rcd α) (q : String)
    (h : q ∉ rcdKeys r) : rcdLookup r q = none := by
  cases hl : rcdLookup r q with
  | none => rfl
  | some v =>
    exact absurd ((rcdLookup_isSome_iff r q).mp (by simp [hl])) h

theorem rcdAssign_nil {α : Type} (t : Rcd α) : rcdAssign t [] = t := rfl

theorem rcdAssign_cons {α : Type} (t : Rcd α) (k : String) (v : α)
    (rest : Rcd α) :
    rcdAssign t ((k, v) :: rest) = rcdAssign (rcdSet t k v) rest := rfl

theorem rcdLookup_rcdAssign {α : Type} (s : Rcd α) (hs : RcdWF s) :
    ∀ (t : Rcd α) (q : String),
      rcdLookup (rcdAssign t s) q = oOr (rcdLookup s q) (rcdLookup t q) := by
  induction s with
  | nil => intro t q; simp [rcdAssign_nil, rcdLookup, oOr]
  | cons p rest ih =>
    intro t q
    obtain ⟨k, v⟩ := p
    have hs' : k ∉ rcdKeys rest ∧ (rcdKeys rest).Nodup :=
      List.nodup_cons.mp (by simpa [RcdWF, rcdKeys] using hs)
    have hk : k ∉ rcdKeys rest := hs'.1
    have hrest : RcdWF rest := hs'.2
    rw [rcdAssign_cons, ih hrest]
    by_cases hkq : k = q
    · subst hkq
      rw [rcdLookup_eq_none_of_not_mem rest k hk]
      simp [rcdLookup, oOr, rcdLookup_rcdSet]
    · simp [rcdLookup, hkq, rcdLookup_rcdSet, oOr]

/-! ### `new Set` lemmas -/

theorem jsSetGo_append_of_nodup :
    ∀ (l acc : List String), l.Nodup → (∀ x ∈ l, x ∉ acc) →
      jsSetGo l acc = acc ++ l := by
  intro l
  induction l with
  | nil => intro acc _ _; simp [jsSetGo]
  | cons x rest ih =>
    intro acc hnd hdisj
    have hx : x ∉ acc := hdisj x (by simp)
    have hstep : jsSetAdd acc x = acc ++ [x] := by simp [jsSetAdd, hx]
    rw [jsSetGo, hstep, ih (acc ++ [x]) hnd.of_cons]
    · simp
    · intro y hy
      simp only [List.mem_append, List.mem_singleton]
      rintro (h | h)
      · exact hdisj y (by simp [hy]) h
      · subst h
        exact (List.nodup_cons.mp hnd).1 hy

theorem jsSetGo_length_le :
    ∀ (l acc : List String), (jsSetGo l acc).length ≤ acc.length + l.length := by
  intro l
  induction l with
  | nil => intro acc; simp [jsSetGo]
  | cons x rest ih =>
    intro acc
    rw [jsSetGo]
    refine le_trans (ih (jsSetAdd acc x)) ?_
    have h1 : (jsSetAdd acc x).length ≤ acc.length + 1 := by
      by_cases hx : x ∈ acc <;> simp [jsSetAdd, hx]
    simp only [List.length_cons]
    omega

theorem jsSetGo_length_lt :
    ∀ (l acc : List String), (¬ l.Nodup ∨ ∃ x ∈ l, x ∈ acc) →
      (jsSetGo l acc).length < acc.length + l.length := by
  intro l
  induction l with
  | nil =>
    intro acc h
    rcases h with h | ⟨x, hx, _⟩
    · exact absurd List.nodup_nil h
    · exact absurd hx (List.not_mem_nil x)
  | cons a rest ih =>
    intro acc h
    rw [jsSetGo]
    by_cases ha : a ∈ acc
    · have : jsSetAdd acc a = acc := by simp [jsSetAdd, ha]
      rw [this]
      have := jsSetGo_length_le rest acc
      simp only [List.length_cons]
      omega
    · have hstep : jsSetAdd acc a = acc ++ [a] := by simp [jsSetAdd, ha]
      rw [hstep]
      have hnext : ¬ rest.Nodup ∨ ∃ x ∈ rest, x ∈ acc ++ [a] := by
        rcases h with h | ⟨x, hx, hxacc⟩
        · rcases not_and_or.mp (List.nodup_cons.not.mp h) with h' | h'
          · exact Or.inr ⟨a, not_not.mp h', by simp⟩
          · exact Or.inl h'
        · rcases List.mem_cons.mp hx with rfl | hx'
          · exact absurd hxacc ha
          · exact Or.inr ⟨x, hx', by simp [hxacc]⟩
      have h2 := ih (acc ++ [a]) hnext
      simp only [List.length_append, List.length_singleton, List.length_nil,
        List.length_cons] at h2 ⊢
      omega

theorem jsSet_of_nodup (l : List String) (h : l.Nodup) : jsSet l = l := by
  have := jsSetGo_append_of_nodup l [] h (by simp)
  simpa [jsSet] using this

theorem nodup_of_jsSet_length (l : List String)
    (h : (jsSet l).length = l.length) : l.Nodup := by
  by_contra hnd
  have := jsSetGo_length_lt l [] (Or.inl hnd)
  simp only [List.length_nil, Nat.zero_add] at this
  rw [jsSet] at h
  omega

theorem jsSet_length_ne_of_not_nodup (l : List String) (h : ¬ l.Nodup) :
    (jsSet l).length ≠ l.length := by
  intro heq
  exact h (nodup_of_jsSet_length l heq)

/-! ### `values` identity-map and `createTruenum` lemmas -/

theorem buildValues_lookup :
    ∀ (l : List String) (acc : Rcd String) (q : String),
      rcdLookup (buildValues l acc) q =
        if q ∈ l then some q else rcdLookup acc q := by
  intro l
  induction l with
  | nil => intro acc q; simp [buildValues]
  | cons k rest ih =>
    intro acc q
    rw [buildValues, ih, rcdLookup_rcdSet]
    by_cases h1 : q ∈ rest <;> by_cases h2 : k = q <;>
      simp_all [List.mem_cons, eq_comm]

theorem buildValues_keys :
    ∀ (l : List String) (acc : Rcd String), l.Nodup →
      (∀ k ∈ l, rcdLookup acc k = none) →
      rcdKeys (buildValues l acc) = rcdKeys acc ++ l := by
  intro l
  induction l with
  | nil => intro acc _ _; simp [buildValues]
  | cons k rest ih =>
    intro acc hnd hnone
    have hk : rcdLookup acc k = none := hnone k (by simp)
    rw [buildValues, rcdSet_of_lookup_none acc k k hk,
      ih (acc ++ [(k, k)]) hnd.of_cons]
    · simp [rcdKeys]
    · intro k' hk'
      rw [rcdLookup_append]
      have hne : k ≠ k' := fun h => (List.nodup_cons.mp hnd).1 (h ▸ hk')
      simp [hnone k' (by simp [hk']), rcdLookup, hne, oOr]

/-- The well-formedness facts every `createTruenum`-built enumeration
enjoys: non-empty duplicate-free `keys`, and a `values` map whose own
properties are exactly `keys`. -/
def Truenum.WF (t : Truenum) : Prop :=
  t.keys.Nodup ∧ t.keys ≠ [] ∧
    ∀ s, rcdHasOwn t.values s = true ↔ s ∈ t.keys

theorem createTruenum_ok_build (cfg : TruenumConfig)
    (h1 : cfg.members.Nodup) (h2 : cfg.members ≠ []) :
    createTruenum cfg = .ok
      { keys := cfg.members, values := buildValues cfg.members [],
        name := cfg.name, labels := cfg.labels, i18n := cfg.i18n } := by
  rw [createTruenum, jsSet_of_nodup cfg.members h1]
  simp [List.length_eq_zero, h2]

theorem createTruenum_ok_inv (cfg : TruenumConfig) (t : Truenum)
    (h : createTruenum cfg = .ok t) :
    cfg.members.Nodup ∧ cfg.members ≠ [] ∧
      t = { keys := cfg.members, values := buildValues cfg.members [],
            name := cfg.name, labels := cfg.labels, i18n := cfg.i18n } := by
  rw [createTruenum] at h
  split_ifs at h with hdup hemp
  · have hnd : cfg.members.Nodup :=
      nodup_of_jsSet_length cfg.members (not_ne_iff.mp hdup)
    have hne : cfg.members ≠ [] := by
      intro hnil
      exact hemp (by simp [hnil])
    exact ⟨hnd, hne, (Except.ok.inj h).symm⟩

theorem createTruenum_WF (cfg : TruenumConfig) (t : Truenum)
    (h : createTruenum cfg = .ok t) : t.WF := by
  obtain ⟨hnd, hne, rfl⟩ := createTruenum_ok_inv cfg t h
  refine ⟨hnd, hne, ?_⟩
  intro s
  simp only [rcdHasOwn, buildValues_lookup]
  by_cases hs : s ∈ cfg.members <;> simp [hs, rcdLookup]

theorem Truenum.is_str_iff (t : Truenum) (hWF : t.WF) (s : String) :
    t.is (.str s) = true ↔ s ∈ t.keys := by
  rw [Truenum.is, Truenum.isEnumKey]
  exact hWF.2.2 s

theorem Truenum.is_nonstr (t : Truenum) (v : JSValue)
    (h : ∀ s, v ≠ .str s) : t.is v = false := by
  cases v with
  | str s => exact absurd rfl (h s)
  | num n => rfl
  | boolV b => rfl
  | nullV => rfl
  | undefV => rfl
  | obj => rfl

theorem Truenum.getLabel_of_mem (t : Truenum) (hWF : t.WF) (k : String)
    (hk : k ∈ t.keys) : t.getLabel k = .ok (labelOf t k) := by
  rw [Truenum.getLabel]
  have : t.isEnumKey (.str k) = true := (hWF.2.2 k).mpr hk
  rw [this]
  rfl

theorem Truenum.getTranslation_of_mem (t : Truenum) (hWF : t.WF)
    (k lang : String) (hk : k ∈ t.keys) :
    t.getTranslation k lang = .ok (transOf t k lang) := by
  rw [Truenum.getTranslation]
  have : t.isEnumKey (.str k) = true := (hWF.2.2 k).mpr hk
  rw [this]
  rfl

/-! ### Merge-helper specifications -/

/-- Override lookup on an optional labels record. -/
def optLabelLookup (o : Option (Rcd String)) (q : String) : Option String :=
  match o with
  | some r => rcdLookup r q
  | none => none

/-- Override lookup on an optional i18n record. -/
def optI18nLookup (o : Option (Rcd (Rcd String))) (q lang : String) :
    Option String :=
  match o with
  | some r => (rcdLookup r q).bind (fun tr => rcdLookup tr lang)
  | none => none

theorem mergeLabelsGo_spec (parent : Truenum) :
    ∀ (ks : List String) (acc : Rcd String),
      (∀ k ∈ ks, parent.isEnumKey (.str k) = true) →
      ∃ r, mergeLabelsGo parent ks acc = .ok r ∧
        ∀ q, rcdLookup r q =
          if q ∈ ks then oOr (labelOf parent q) (rcdLookup acc q)
          else rcdLookup acc q := by
  intro ks
  induction ks with
  | nil =>
    intro acc _
    exact ⟨acc, rfl, fun q => by simp⟩
  | cons k rest ih =>
    intro acc hmem
    have hk : parent.isEnumKey (.str k) = true := hmem k (by simp)
    have hgl : parent.getLabel k = .ok (labelOf parent k) := by
      rw [Truenum.getLabel, hk]
      rfl
    have hmem' : ∀ k' ∈ rest, parent.isEnumKey (.str k') = true :=
      fun k' h' => hmem k' (by simp [h'])
    cases hl : labelOf parent k with
    | none =>
      obtain ⟨r, hr, hlook⟩ := ih acc hmem'
      refine ⟨r, ?_, ?_⟩
      · rw [mergeLabelsGo, hgl, hl]
        exact hr
      · intro q
        rw [hlook q]
        by_cases hkq : k = q
        · have hlq : labelOf parent q = none := hkq ▸ hl
          have hm1 : q ∈ k :: rest := by
            rw [hkq]
            exact List.mem_cons_self q rest
          rw [if_pos hm1, hlq]
          by_cases hq : q ∈ rest <;> simp [hq, oOr]
        · have hqk : ¬ q = k := fun h => hkq h.symm
          have hiff : (q ∈ k :: rest) ↔ (q ∈ rest) := by
            simp [List.mem_cons, hqk]
          simp only [hiff]
    | some lab =>
      obtain ⟨r, hr, hlook⟩ := ih (rcdSet acc k lab) hmem'
      refine ⟨r, ?_, ?_⟩
      · rw [mergeLabelsGo, hgl, hl]
        exact hr
      · intro q
        rw [hlook q, rcdLookup_rcdSet]
        by_cases hkq : k = q
        · have hlq : labelOf parent q = some lab := hkq ▸ hl
          have hm1 : q ∈ k :: rest := by
            rw [hkq]
            exact List.mem_cons_self q rest
          rw [if_pos hm1, if_pos hkq, hlq]
          by_cases hq : q ∈ rest <;> simp [hq, oOr]
        · have hqk : ¬ q = k := fun h => hkq h.symm
          have hiff : (q ∈ k :: rest) ↔ (q ∈ rest) := by
            simp [List.mem_cons, hqk]
          simp only [hiff, if_neg hkq]

theorem mergeLabels_spec (parent : Truenum) (subsetMembers : List String)
    (ov : Option (Rcd String))
    (hmem : ∀ k ∈ subsetMembers, parent.isEnumKey (.str k) = true)
    (hov : ∀ o, ov = some o → RcdWF o) :
    ∃ r, mergeLabels parent subsetMembers ov = .ok r ∧
      ∀ q, rcdLookup r q =
        oOr (optLabelLookup ov q)
          (if q ∈ subsetMembers then labelOf parent q else none) := by
  obtain ⟨r0, hr0, hl0⟩ := mergeLabelsGo_spec parent subsetMembers [] hmem
  have hbase : ∀ q, rcdLookup r0 q =
      if q ∈ subsetMembers then labelOf parent q else none := by
    intro q
    rw [hl0 q]
    by_cases hq : q ∈ subsetMembers <;> simp [hq, rcdLookup, oOr_none_right]
  cases ov with
  | none =>
    refine ⟨r0, ?_, ?_⟩
    · rw [mergeLabels, hr0]
    · intro q
      rw [hbase q]
      simp [optLabelLookup, oOr]
  | some o =>
    refine ⟨rcdAssign r0 o, ?_, ?_⟩
    · rw [mergeLabels, hr0]
    · intro q
      rw [rcdLookup_rcdAssign o (hov o rfl) r0 q, hbase q]
      simp [optLabelLookup]

theorem mergeTranslationsGo_spec (parent : Truenum) (key : String)
    (hk : parent.isEnumKey (.str key) = true) :
    ∀ (langs : List String) (r : Rcd String),
      ∃ r', mergeTranslationsGo parent key langs (some r) = .ok (some r') ∧
        ∀ lang, rcdLookup r' lang =
          if lang ∈ langs then
            oOr (transOf parent key lang) (rcdLookup r lang)
          else rcdLookup r lang := by
  intro langs
  induction langs with
  | nil =>
    intro r
    exact ⟨r, rfl, fun lang => by simp⟩
  | cons lang rest ih =>
    intro r
    have hgt : parent.getTranslation key lang =
        .ok (transOf parent key lang) := by
      rw [Truenum.getTranslation, hk]
      rfl
    cases ht : transOf parent key lang with
    | none =>
      obtain ⟨r', hr', hlook⟩ := ih r
      refine ⟨r', ?_, ?_⟩
      · rw [mergeTranslationsGo, hgt, ht]
        exact hr'
      · intro l
        rw [hlook l]
        by_cases hlq : lang = l
        · have htl : transOf parent key l = none := hlq ▸ ht
          have hm1 : l ∈ lang :: rest := by
            rw [hlq]
            exact List.mem_cons_self l rest
          rw [if_pos hm1, htl]
          by_cases hq : l ∈ rest <;> simp [hq, oOr]
        · have hql : ¬ l = lang := fun h => hlq h.symm
          have hiff : (l ∈ lang :: rest) ↔ (l ∈ rest) := by
            simp [List.mem_cons, hql]
          simp only [hiff]
    | some v =>
      obtain ⟨r', hr', hlook⟩ := ih (rcdSet r lang v)
      refine ⟨r', ?_, ?_⟩
      · rw [mergeTranslationsGo, hgt, ht]
        exact hr'
      · intro l
        rw [hlook l, rcdLookup_rcdSet]
        by_cases hlq : lang = l
        · have htl : transOf parent key l = some v := hlq ▸ ht
          have hm1 : l ∈ lang :: rest := by
            rw [hlq]
            exact List.mem_cons_self l rest
          rw [if_pos hm1, if_pos hlq, htl]
          by_cases hq : l ∈ rest <;> simp [hq, oOr]
        · have hql : ¬ l = lang := fun h => hlq h.symm
          have hiff : (l ∈ lang :: rest) ↔ (l ∈ rest) := by
            simp [List.mem_cons, hql]
          simp only [hiff, if_neg hlq]

theorem initI18nMapGo_lookup :
    ∀ (l : List String) (acc : Rcd (Rcd String)) (q : String),
      rcdLookup (initI18nMapGo l acc) q =
        if q ∈ l then some [] else rcdLookup acc q := by
  intro l
  induction l with
  | nil => intro acc q; simp [initI18nMapGo]
  | cons k rest ih =>
    intro acc q
    rw [initI18nMapGo, ih, rcdLookup_rcdSet]
    by_cases h1 : q ∈ rest <;> by_cases h2 : k = q <;>
      simp_all [List.mem_cons, eq_comm]

theorem mergeI18nBaseGo_spec (t : Truenum) :
    ∀ (ks : List String) (acc : Rcd (Rcd String)),
      ks.Nodup →
      (∀ k ∈ ks, t.isEnumKey (.str k) = true) →
      (∀ k ∈ ks, ∃ r, rcdLookup acc k = some r) →
      ∃ m, mergeI18nBaseGo t ks acc = .ok m ∧
        (∀ q, q ∉ ks → rcdLookup m q = rcdLookup acc q) ∧
        (∀ q ∈ ks, ∀ r, rcdLookup acc q = some r →
          ∃ r', rcdLookup m q = some r' ∧
            ∀ lang, rcdLookup r' lang =
              if lang ∈ SUPPORTED_LANGS then
                oOr (transOf t q lang) (rcdLookup r lang)
              else rcdLookup r lang) := by
  intro ks
  induction ks with
  | nil =>
    intro acc _ _ _
    exact ⟨acc, rfl, fun q _ => rfl,
      fun q hq => absurd hq (List.not_mem_nil q)⟩
  | cons k rest ih =>
    intro acc hnd hmem hsome
    obtain ⟨r, hr⟩ := hsome k (by simp)
    have hk : t.isEnumKey (.str k) = true := hmem k (by simp)
    obtain ⟨r1, hr1, hlook1⟩ :=
      mergeTranslationsGo_spec t k hk SUPPORTED_LANGS r
    have hstep : mergeTranslations t k (rcdLookup acc k) SUPPORTED_LANGS =
        .ok (some r1) := by
      rw [hr]
      exact hr1
    have hknotrest : k ∉ rest := (List.nodup_cons.mp hnd).1
    have hsome' : ∀ k' ∈ rest, ∃ r', rcdLookup (rcdSet acc k r1) k' = some r' := by
      intro k' h'
      rw [rcdLookup_rcdSet]
      by_cases hkk : k = k'
      · exact ⟨r1, by rw [if_pos hkk]⟩
      · rw [if_neg hkk]
        exact hsome k' (by simp [h'])
    obtain ⟨m, hm, huntouched, htouched⟩ :=
      ih (rcdSet acc k r1) hnd.of_cons
        (fun k' h' => hmem k' (by simp [h'])) hsome'
    refine ⟨m, ?_, ?_, ?_⟩
    · rw [mergeI18nBaseGo, hstep]
      exact hm
    · intro q hq
      have hq1 : q ∉ rest := fun h => hq (by simp [h])
      have hq2 : ¬ k = q := fun h => hq (by rw [← h]; simp)
      rw [huntouched q hq1, rcdLookup_rcdSet, if_neg hq2]
    · intro q hq rq hrq
      rcases List.mem_cons.mp hq with hqk | hqrest
      · have hmq : rcdLookup m q = some r1 := by
          rw [huntouched q (by rw [hqk]; exact hknotrest),
            rcdLookup_rcdSet, if_pos hqk.symm]
        refine ⟨r1, hmq, ?_⟩
        intro lang
        have hreq : rq = r := by
          rw [hqk] at hrq
          exact Option.some.inj (hrq.symm.trans hr)
        rw [hreq, hqk]
        exact hlook1 lang
      · have hq2 : ¬ k = q := fun h => hknotrest (h ▸ hqrest)
        have hacc'q : rcdLookup (rcdSet acc k r1) q = some rq := by
          rw [rcdLookup_rcdSet, if_neg hq2]
          exact hrq
        exact htouched q hqrest rq hacc'q

theorem mergeI18nBaseGo_ok (t : Truenum) :
    ∀ (ks : List String) (acc : Rcd (Rcd String)),
      (∀ k ∈ ks, t.isEnumKey (.str k) = true) →
      (∀ k ∈ ks, (rcdLookup acc k).isSome = true) →
      ∃ m, mergeI18nBaseGo t ks acc = .ok m ∧
        ∀ q, (rcdLookup acc q).isSome = true →
          (rcdLookup m q).isSome = true := by
  intro ks
  induction ks with
  | nil =>
    intro acc _ _
    exact ⟨acc, rfl, fun q h => h⟩
  | cons k rest ih =>
    intro acc hmem hsome
    have hk := hmem k (by simp)
    obtain ⟨r, hr⟩ := Option.isSome_iff_exists.mp (hsome k (by simp))
    obtain ⟨r1, hr1, _⟩ := mergeTranslationsGo_spec t k hk SUPPORTED_LANGS r
    have hstep : mergeTranslations t k (rcdLookup acc k) SUPPORTED_LANGS =
        .ok (some r1) := by
      rw [hr]
      exact hr1
    have hsome' : ∀ k' ∈ rest,
        (rcdLookup (rcdSet acc k r1) k').isSome = true := by
      intro k' h'
      rw [rcdLookup_rcdSet]
      by_cases hkk : k = k'
      · rw [if_pos hkk]
        rfl
      · rw [if_neg hkk]
        exact hsome k' (by simp [h'])
    obtain ⟨m, hm, hpres⟩ :=
      ih (rcdSet acc k r1) (fun k' h' => hmem k' (by simp [h'])) hsome'
    refine ⟨m, ?_, ?_⟩
    · rw [mergeI18nBaseGo, hstep]
      exact hm
    · intro q hq
      apply hpres
      rw [rcdLookup_rcdSet]
      by_cases hkk : k = q
      · rw [if_pos hkk]
        rfl
      · rw [if_neg hkk]
        exact hq

theorem assignOvGo_ok :
    ∀ (ov : List (String × Rcd String)) (acc : Rcd (Rcd String)),
      (∀ p ∈ ov, (rcdLookup acc p.1).isSome = true) →
      ∃ m, assignOvGo ov acc = .ok m ∧
        ∀ q, (rcdLookup acc q).isSome = true →
          (rcdLookup m q).isSome = true := by
  intro ov
  induction ov with
  | nil =>
    intro acc _
    exact ⟨acc, rfl, fun q h => h⟩
  | cons p rest ih =>
    intro acc hsome
    obtain ⟨k, tr⟩ := p
    obtain ⟨target, htg⟩ :=
      Option.isSome_iff_exists.mp (hsome (k, tr) (by simp))
    have hsome' : ∀ p' ∈ rest,
        (rcdLookup (rcdSet acc k (rcdAssign target tr)) p'.1).isSome = true := by
      intro p' h'
      rw [rcdLookup_rcdSet]
      by_cases hkk : k = p'.1
      · rw [if_pos hkk]
        rfl
      · rw [if_neg hkk]
        exact hsome p' (by simp [h'])
    obtain ⟨m, hm, hpres⟩ := ih _ hsome'
    refine ⟨m, ?_, ?_⟩
    · rw [assignOvGo, htg]
      exact hm
    · intro q hq
      apply hpres
      rw [rcdLookup_rcdSet]
      by_cases hkk : k = q
      · rw [if_pos hkk]
        rfl
      · rw [if_neg hkk]
        exact hq

theorem subsetValidateGo_ok (parent : Truenum) :
    ∀ (ks : List String), (∀ k ∈ ks, parent.is (.str k) = true) →
      subsetValidateGo parent ks = .ok () := by
  intro ks
  induction ks with
  | nil => intro _; rfl
  | cons k rest ih =>
    intro h
    rw [subsetValidateGo, if_pos (h k (by simp))]
    exact ih (fun k' h' => h k' (by simp [h']))

theorem mergeI18n_ok (parent : Truenum) (subsetMembers : List String)
    (ov : Option (Rcd (Rcd String)))
    (hmem : ∀ k ∈ subsetMembers, parent.isEnumKey (.str k) = true)
    (hov : ∀ o, ov = some o → ∀ p ∈ o, p.1 ∈ subsetMembers) :
    ∃ m, mergeI18n parent subsetMembers ov = .ok m := by
  have hsome : ∀ k ∈ subsetMembers,
      (rcdLookup (initI18nMap subsetMembers) k).isSome = true := by
    intro k hk
    rw [initI18nMap, initI18nMapGo_lookup, if_pos hk]
    rfl
  obtain ⟨m0, hm0, hpres⟩ :=
    mergeI18nBaseGo_ok parent subsetMembers (initI18nMap subsetMembers)
      hmem hsome
  cases ov with
  | none => exact ⟨m0, by rw [mergeI18n, hm0]⟩
  | some o =>
    have hovsome : ∀ p ∈ o, (rcdLookup m0 p.1).isSome = true := by
      intro p hp
      exact hpres p.1 (hsome p.1 (hov o rfl p hp))
    obtain ⟨m, hm, _⟩ := assignOvGo_ok o m0 hovsome
    refine ⟨m, ?_⟩
    rw [mergeI18n, hm0]
    exact hm

theorem mem_gatherAllKeys (ts : List Truenum) (q : String) :
    q ∈ gatherAllKeys ts ↔ ∃ t ∈ ts, q ∈ t.keys := by
  induction ts with
  | nil => simp [gatherAllKeys]
  | cons t rest ih => simp [gatherAllKeys, ih, List.mem_append]

theorem gatherAllKeys_ne_nil (ts : List Truenum) (hne : ts ≠ [])
    (hWF : ∀ t ∈ ts, t.WF) : gatherAllKeys ts ≠ [] := by
  cases ts with
  | nil => exact absurd rfl hne
  | cons t rest =>
    have hk := (hWF t (by simp)).2.1
    rw [gatherAllKeys]
    intro h
    rcases List.append_eq_nil.mp h with ⟨h1, _⟩
    exact hk h1

theorem mergeAllLabelsOuter_spec :
    ∀ (ts : List Truenum) (acc : Rcd String),
      (∀ t ∈ ts, ∀ k ∈ t.keys, t.isEnumKey (.str k) = true) →
      (gatherAllKeys ts).Nodup →
      ∃ r, mergeAllLabelsOuter ts acc = .ok r ∧
        (∀ q, (∀ t ∈ ts, q ∉ t.keys) → rcdLookup r q = rcdLookup acc q) ∧
        (∀ t ∈ ts, ∀ q ∈ t.keys,
          rcdLookup r q = oOr (labelOf t q) (rcdLookup acc q)) := by
  intro ts
  induction ts with
  | nil =>
    intro acc _ _
    exact ⟨acc, rfl, fun q _ => rfl,
      fun t ht => absurd ht (List.not_mem_nil t)⟩
  | cons t rest ih =>
    intro acc hmem hnd
    rw [gatherAllKeys] at hnd
    have h3 := List.nodup_append.mp hnd
    obtain ⟨r1, hr1, hlook1⟩ := mergeLabelsGo_spec t t.keys acc (hmem t (by simp))
    obtain ⟨r, hr, hun, hto⟩ :=
      ih r1 (fun t' h' => hmem t' (by simp [h'])) h3.2.1
    refine ⟨r, ?_, ?_, ?_⟩
    · rw [mergeAllLabelsOuter, hr1]
      exact hr
    · intro q hq
      have hqt : q ∉ t.keys := hq t (by simp)
      rw [hun q (fun t' h' => hq t' (by simp [h'])), hlook1 q, if_neg hqt]
    · intro t' ht' q hq
      rcases List.mem_cons.mp ht' with h | h
      · subst h
        have hqrest : ∀ t'' ∈ rest, q ∉ t''.keys := by
          intro t'' h'' hq''
          exact h3.2.2 hq ((mem_gatherAllKeys rest q).mpr ⟨t'', h'', hq''⟩)
        rw [hun q hqrest, hlook1 q, if_pos hq]
      · have hqt : q ∉ t.keys := fun h0 =>
          h3.2.2 h0 ((mem_gatherAllKeys rest q).mpr ⟨t', h, hq⟩)
        rw [hto t' h q hq, hlook1 q, if_neg hqt]

theorem mergeAllI18nOuter_spec :
    ∀ (ts : List Truenum) (acc : Rcd (Rcd String)),
      (∀ t ∈ ts, ∀ k ∈ t.keys, t.isEnumKey (.str k) = true) →
      (gatherAllKeys ts).Nodup →
      (∀ t ∈ ts, ∀ k ∈ t.keys, ∃ r, rcdLookup acc k = some r) →
      ∃ m, mergeAllI18nOuter ts acc = .ok m ∧
        (∀ q, (∀ t ∈ ts, q ∉ t.keys) → rcdLookup m q = rcdLookup acc q) ∧
        (∀ t ∈ ts, ∀ q ∈ t.keys, ∀ r, rcdLookup acc q = some r →
          ∃ r', rcdLookup m q = some r' ∧
            ∀ lang, rcdLookup r' lang =
              if lang ∈ SUPPORTED_LANGS then
                oOr (transOf t q lang) (rcdLookup r lang)
              else rcdLookup r lang) := by
  intro ts
  induction ts with
  | nil =>
    intro acc _ _ _
    exact ⟨acc, rfl, fun q _ => rfl,
      fun t ht => absurd ht (List.not_mem_nil t)⟩
  | cons t rest ih =>
    intro acc hmem hnd hsome
    rw [gatherAllKeys] at hnd
    have h3 := List.nodup_append.mp hnd
    obtain ⟨m1, hm1, hun1, hto1⟩ :=
      mergeI18nBaseGo_spec t t.keys acc h3.1 (hmem t (by simp))
        (hsome t (by simp))
    have hsome' : ∀ t' ∈ rest, ∀ k ∈ t'.keys,
        ∃ r, rcdLookup m1 k = some r := by
      intro t' h' k hk
      have hkt : k ∉ t.keys := fun h0 =>
        h3.2.2 h0 ((mem_gatherAllKeys rest k).mpr ⟨t', h', hk⟩)
      rw [hun1 k hkt]
      exact hsome t' (by simp [h']) k hk
    obtain ⟨m, hm, hun, hto⟩ :=
      ih m1 (fun t' h' => hmem t' (by simp [h'])) h3.2.1 hsome'
    refine ⟨m, ?_, ?_, ?_⟩
    · rw [mergeAllI18nOuter, hm1]
      exact hm
    · intro q hq
      have hqt : q ∉ t.keys := hq t (by simp)
      rw [hun q (fun t' h' => hq t' (by simp [h'])), hun1 q hqt]
    · intro t' ht' q hq r hr
      rcases List.mem_cons.mp ht' with h | h
      · subst h
        have hqrest : ∀ t'' ∈ rest, q ∉ t''.keys := by
          intro t'' h'' hq''
          exact h3.2.2 hq ((mem_gatherAllKeys rest q).mpr ⟨t'', h'', hq''⟩)
        obtain ⟨r', hr', hlook⟩ := hto1 q hq r hr
        refine ⟨r', ?_, hlook⟩
        rw [hun q hqrest]
        exact hr'
      · have hqt : q ∉ t.keys := fun h0 =>
          h3.2.2 h0 ((mem_gatherAllKeys rest q).mpr ⟨t', h, hq⟩)
        have hm1q : rcdLookup m1 q = some r := by
          rw [hun1 q hqt]
          exact hr
        exact hto t' h q hq r hm1q

theorem assignOvGo_spec :
    ∀ (ov : List (String × Rcd String)) (acc : Rcd (Rcd String)),
      RcdWF ov →
      (∀ p ∈ ov, RcdWF p.2) →
      (∀ p ∈ ov, (rcdLookup acc p.1).isSome = true) →
      ∃ m, assignOvGo ov acc = .ok m ∧
        (∀ q, q ∉ rcdKeys ov → rcdLookup m q = rcdLookup acc q) ∧
        (∀ q tr, rcdLookup ov q = some tr →
          ∀ target, rcdLookup acc q = some target →
            ∃ r', rcdLookup m q = some r' ∧
              ∀ lang, rcdLookup r' lang =
                oOr (rcdLookup tr lang) (rcdLookup target lang)) := by
  intro ov
  induction ov with
  | nil =>
    intro acc _ _ _
    refine ⟨acc, rfl, fun q _ => rfl, ?_⟩
    intro q tr htr
    simp [rcdLookup] at htr
  | cons p rest ih =>
    intro acc hwf hwf2 hsome
    obtain ⟨k, tr⟩ := p
    obtain ⟨target, htg⟩ :=
      Option.isSome_iff_exists.mp (hsome (k, tr) (by simp))
    have hpair :=
      List.nodup_cons.mp (show (k :: rcdKeys rest).Nodup from hwf)
    have hknot : k ∉ rcdKeys rest := hpair.1
    have hwfrest : RcdWF rest := hpair.2
    have hsome' : ∀ p' ∈ rest,
        (rcdLookup (rcdSet acc k (rcdAssign target tr)) p'.1).isSome = true := by
      intro p' h'
      rw [rcdLookup_rcdSet]
      by_cases hkk : k = p'.1
      · rw [if_pos hkk]
        rfl
      · rw [if_neg hkk]
        exact hsome p' (by simp [h'])
    obtain ⟨m, hm, hun, hto⟩ :=
      ih (rcdSet acc k (rcdAssign target tr)) hwfrest
        (fun p' h' => hwf2 p' (by simp [h'])) hsome'
    refine ⟨m, ?_, ?_, ?_⟩
    · rw [assignOvGo, htg]
      exact hm
    · intro q hq
      have hq1 : q ∉ rcdKeys rest := fun h =>
        hq (show q ∈ k :: rcdKeys rest from List.mem_cons_of_mem k h)
      have hq2 : ¬ k = q := fun h =>
        hq (show q ∈ k :: rcdKeys rest from by
          rw [← h]
          exact List.mem_cons_self k (rcdKeys rest))
      rw [hun q hq1, rcdLookup_rcdSet, if_neg hq2]
    · intro q trq htrq target' htarget'
      by_cases hkq : k = q
      · have h1 : rcdLookup ((k, tr) :: rest) q = some tr := by
          rw [rcdLookup, if_pos hkq]
        have htr_eq : trq = tr := Option.some.inj (htrq.symm.trans h1)
        have htgt_eq : target' = target := by
          rw [← hkq] at htarget'
          exact Option.some.inj (htarget'.symm.trans htg)
        have hmq : rcdLookup m q = some (rcdAssign target tr) := by
          rw [hun q (by rw [← hkq]; exact hknot), rcdLookup_rcdSet,
            if_pos hkq]
        refine ⟨rcdAssign target tr, hmq, ?_⟩
        intro lang
        rw [htr_eq, htgt_eq,
          rcdLookup_rcdAssign tr (hwf2 (k, tr) (by simp)) target lang]
      · have htrq' : rcdLookup rest q = some trq := by
          rw [rcdLookup, if_neg hkq] at htrq
          exact htrq
        have htarget'' :
            rcdLookup (rcdSet acc k (rcdAssign target tr)) q = some target' := by
          rw [rcdLookup_rcdSet, if_neg hkq]
          exact htarget'
        exact hto q trq htrq' target' htarget''

theorem mergeAllI18n_spec (ts : List Truenum) (uniqueKeys : List String)
    (ov : Option (Rcd (Rcd String)))
    (hmem : ∀ t ∈ ts, ∀ k ∈ t.keys, t.isEnumKey (.str k) = true)
    (hnd : (gatherAllKeys ts).Nodup)
    (hcover : ∀ t ∈ ts, ∀ k ∈ t.keys, k ∈ uniqueKeys)
    (hov : ∀ o, ov = some o →
      RcdWF o ∧ (∀ p ∈ o, RcdWF p.2) ∧ ∀ p ∈ o, p.1 ∈ uniqueKeys) :
    ∃ m, mergeAllI18n ts uniqueKeys ov = .ok m ∧
      ∀ t ∈ ts, ∀ q ∈ t.keys, ∃ r', rcdLookup m q = some r' ∧
        ∀ lang, rcdLookup r' lang =
          oOr (optI18nLookup ov q lang)
            (if lang ∈ SUPPORTED_LANGS then transOf t q lang else none) := by
  have hsome0 : ∀ t ∈ ts, ∀ k ∈ t.keys,
      ∃ r, rcdLookup (initI18nMap uniqueKeys) k = some r := by
    intro t ht k hk
    rw [initI18nMap, initI18nMapGo_lookup, if_pos (hcover t ht k hk)]
    exact ⟨[], rfl⟩
  obtain ⟨m1, hm1, hun1, hto1⟩ :=
    mergeAllI18nOuter_spec ts (initI18nMap uniqueKeys) hmem hnd hsome0
  have hbase : ∀ t ∈ ts, ∀ q ∈ t.keys, ∃ r', rcdLookup m1 q = some r' ∧
      ∀ lang, rcdLookup r' lang =
        if lang ∈ SUPPORTED_LANGS then transOf t q lang else none := by
    intro t ht q hq
    have hinit : rcdLookup (initI18nMap uniqueKeys) q = some [] := by
      rw [initI18nMap, initI18nMapGo_lookup, if_pos (hcover t ht q hq)]
    obtain ⟨r', hr', hlook⟩ := hto1 t ht q hq [] hinit
    refine ⟨r', hr', ?_⟩
    intro lang
    rw [hlook lang]
    by_cases hl : lang ∈ SUPPORTED_LANGS <;>
      simp [hl, rcdLookup, oOr_none_right]
  cases ov with
  | none =>
    refine ⟨m1, ?_, ?_⟩
    · rw [mergeAllI18n, hm1]
      rfl
    · intro t ht q hq
      obtain ⟨r', hr', hlook⟩ := hbase t ht q hq
      refine ⟨r', hr', ?_⟩
      intro lang
      rw [hlook lang]
      simp [optI18nLookup, oOr]
  | some o =>
    obtain ⟨howf, howf2, hokeys⟩ := hov o rfl
    have hsome1 : ∀ p ∈ o, (rcdLookup m1 p.1).isSome = true := by
      intro p hp
      by_cases htouch : ∃ t ∈ ts, p.1 ∈ t.keys
      · obtain ⟨t, ht, hk⟩ := htouch
        obtain ⟨r', hr', _⟩ := hbase t ht p.1 hk
        rw [hr']
        rfl
      · push_neg at htouch
        rw [hun1 p.1 htouch, initI18nMap, initI18nMapGo_lookup,
          if_pos (hokeys p hp)]
        rfl
    obtain ⟨m, hm, hunov, htoov⟩ := assignOvGo_spec o m1 howf howf2 hsome1
    refine ⟨m, ?_, ?_⟩
    · rw [mergeAllI18n, hm1]
      exact hm
    · intro t ht q hq
      obtain ⟨r', hr', hlook⟩ := hbase t ht q hq
      cases hoq : rcdLookup o q with
      | none =>
        have hqnot : q ∉ rcdKeys o := by
          intro hmem'
          have h := (rcdLookup_isSome_iff o q).mpr hmem'
          rw [hoq] at h
          simp at h
        refine ⟨r', ?_, ?_⟩
        · rw [hunov q hqnot]
          exact hr'
        · intro lang
          rw [hlook lang]
          simp [optI18nLookup, hoq, oOr]
      | some tr =>
        obtain ⟨r'', hr'', hlook2⟩ := htoov q tr hoq r' hr'
        refine ⟨r'', hr'', ?_⟩
        intro lang
        rw [hlook2 lang, hlook lang]
        simp [optI18nLookup, hoq]

theorem createTruenum_dup (cfg : TruenumConfig)
    (hdup : ¬ cfg.members.Nodup) :
    createTruenum cfg = .error (.error
      "createTruenum: Duplicate keys found. All enum keys must be unique.") := by
  unfold createTruenum
  rw [if_pos (jsSet_length_ne_of_not_nodup cfg.members hdup)]

theorem createTruenum_empty (cfg : TruenumConfig)
    (he : cfg.members = []) :
    createTruenum cfg = .error (.error
      "createTruenum: members[] cannot be empty") := by
  unfold createTruenum
  rw [he]
  rfl

theorem subsetTruenum_spec (cfg : TruenumConfig) (parent : Truenum)
    (hp : createTruenum cfg = .ok parent) (chosen : List String)
    (hch : ∀ k ∈ chosen, k ∈ parent.keys) (hnd : chosen.Nodup)
    (hne : chosen ≠ []) (optName : Option String)
    (ovL : Option (Rcd String)) (hovL : ∀ o, ovL = some o → RcdWF o) :
    ∃ u, subsetTruenum parent chosen optName ovL none = .ok u ∧
      u.keys = chosen ∧
      ∀ k ∈ chosen, u.getLabel k =
        .ok (oOr (optLabelLookup ovL k) (labelOf parent k)) := by
  have hWF := createTruenum_WF cfg parent hp
  have hmemB : ∀ k ∈ chosen, parent.isEnumKey (.str k) = true :=
    fun k hk => (hWF.2.2 k).mpr (hch k hk)
  have hvalid : subsetValidateGo parent chosen = .ok () :=
    subsetValidateGo_ok parent chosen (fun k hk => hmemB k hk)
  obtain ⟨L, hL, hLlook⟩ := mergeLabels_spec parent chosen ovL hmemB hovL
  obtain ⟨M, hM⟩ := mergeI18n_ok parent chosen none hmemB
    (fun o ho => absurd ho (by simp))
  have hcreate : createTruenum
      { members := chosen, name := optName,
        labels := some L, i18n := some M } = .ok
      { keys := chosen, values := buildValues chosen [],
        name := optName, labels := some L, i18n := some M } :=
    createTruenum_ok_build _ hnd hne
  refine ⟨{ keys := chosen, values := buildValues chosen [],
            name := optName, labels := some L, i18n := some M },
    ?_, rfl, ?_⟩
  · rw [subsetTruenum, hvalid, hL, hM]
    exact hcreate
  · intro k hk
    have huWF := createTruenum_WF _ _ hcreate
    rw [Truenum.getLabel]
    have hkey : Truenum.isEnumKey
        { keys := chosen, values := buildValues chosen [],
          name := optName, labels := some L, i18n := some M }
        (.str k) = true := (huWF.2.2 k).mpr hk
    rw [hkey]
    simp only [if_true]
    have hlk := hLlook k
    rw [if_pos hk] at hlk
    simp only [Option.some_bind]
    rw [hlk]

theorem subsetTruenum_dup (cfg : TruenumConfig) (parent : Truenum)
    (hp : createTruenum cfg = .ok parent) (chosen : List String)
    (hch : ∀ k ∈ chosen, k ∈ parent.keys) (hdup : ¬ chosen.Nodup)
    (optName : Option String) (optLabels : Option (Rcd String))
    (optI18n : Option (Rcd (Rcd String)))
    (hovI : ∀ o, optI18n = some o → ∀ p ∈ o, p.1 ∈ chosen) :
    subsetTruenum parent chosen optName optLabels optI18n = .error (.error
      "createTruenum: Duplicate keys found. All enum keys must be unique.") := by
  have hWF := createTruenum_WF cfg parent hp
  have hmemB : ∀ k ∈ chosen, parent.isEnumKey (.str k) = true :=
    fun k hk => (hWF.2.2 k).mpr (hch k hk)
  have hvalid : subsetValidateGo parent chosen = .ok () :=
    subsetValidateGo_ok parent chosen (fun k hk => hmemB k hk)
  have hL : ∃ L, mergeLabels parent chosen optLabels = .ok L := by
    obtain ⟨r0, hr0, _⟩ := mergeLabelsGo_spec parent chosen [] hmemB
    cases optLabels with
    | none => exact ⟨r0, by rw [mergeLabels, hr0]⟩
    | some o => exact ⟨rcdAssign r0 o, by rw [mergeLabels, hr0]⟩
  obtain ⟨L, hL⟩ := hL
  obtain ⟨M, hM⟩ := mergeI18n_ok parent chosen optI18n hmemB hovI
  rw [subsetTruenum, hvalid, hL, hM]
  exact createTruenum_dup _ hdup

theorem composeTruenum_spec (ts : List Truenum)
    (hWF : ∀ t ∈ ts, t.WF) (hne : ts ≠ [])
    (hnd : (gatherAllKeys ts).Nodup)
    (optName : Option String) (optLabels : Option (Rcd String))
    (optI18n : Option (Rcd (Rcd String)))
    (hovL : ∀ o, optLabels = some o → RcdWF o)
    (hovI : ∀ o, optI18n = some o →
      RcdWF o ∧ (∀ p ∈ o, RcdWF p.2) ∧ ∀ p ∈ o, p.1 ∈ gatherAllKeys ts) :
    ∃ u, composeTruenum ts optName optLabels optI18n = .ok u ∧
      u.keys = gatherAllKeys ts ∧
      (∀ t ∈ ts, ∀ k ∈ t.keys, u.getLabel k =
        .ok (oOr (optLabelLookup optLabels k) (labelOf t k))) ∧
      (∀ t ∈ ts, ∀ k ∈ t.keys, ∀ lang, u.getTranslation k lang =
        .ok (oOr (optI18nLookup optI18n k lang)
          (if lang ∈ SUPPORTED_LANGS then transOf t k lang else none))) := by
  have hmem : ∀ t ∈ ts, ∀ k ∈ t.keys, t.isEnumKey (.str k) = true :=
    fun t ht k hk => ((hWF t ht).2.2 k).mpr hk
  have hjs : jsSet (gatherAllKeys ts) = gatherAllKeys ts :=
    jsSet_of_nodup _ hnd
  obtain ⟨L0, hL0, hunL, htoL⟩ := mergeAllLabelsOuter_spec ts [] hmem hnd
  have hbaseL : ∀ t ∈ ts, ∀ k ∈ t.keys, rcdLookup L0 k = labelOf t k := by
    intro t ht k hk
    rw [htoL t ht k hk]
    simp [rcdLookup, oOr_none_right]
  obtain ⟨L, hLeq, hLlook⟩ :
      ∃ L, mergeAllLabels ts optLabels = .ok L ∧
        ∀ t ∈ ts, ∀ k ∈ t.keys,
          rcdLookup L k = oOr (optLabelLookup optLabels k) (labelOf t k) := by
    cases optLabels with
    | none =>
      refine ⟨L0, by rw [mergeAllLabels, hL0], ?_⟩
      intro t ht k hk
      rw [hbaseL t ht k hk]
      simp [optLabelLookup, oOr]
    | some o =>
      refine ⟨rcdAssign L0 o, by rw [mergeAllLabels, hL0], ?_⟩
      intro t ht k hk
      rw [rcdLookup_rcdAssign o (hovL o rfl) L0 k, hbaseL t ht k hk]
      simp [optLabelLookup]
  have hcover : ∀ t ∈ ts, ∀ k ∈ t.keys, k ∈ jsSet (gatherAllKeys ts) := by
    intro t ht k hk
    rw [hjs]
    exact (mem_gatherAllKeys ts k).mpr ⟨t, ht, hk⟩
  have hovI' : ∀ o, optI18n = some o →
      RcdWF o ∧ (∀ p ∈ o, RcdWF p.2) ∧
        ∀ p ∈ o, p.1 ∈ jsSet (gatherAllKeys ts) := by
    intro o ho
    obtain ⟨h1, h2, h3⟩ := hovI o ho
    refine ⟨h1, h2, fun p hp => ?_⟩
    rw [hjs]
    exact h3 p hp
  obtain ⟨M, hMeq, hMlook⟩ :=
    mergeAllI18n_spec ts (jsSet (gatherAllKeys ts)) optI18n hmem hnd
      hcover hovI'
  have hndjs : (jsSet (gatherAllKeys ts)).Nodup := by
    rw [hjs]
    exact hnd
  have hnejs : jsSet (gatherAllKeys ts) ≠ [] := by
    rw [hjs]
    exact gatherAllKeys_ne_nil ts hne hWF
  obtain ⟨u, hcreate⟩ : ∃ u, createTruenum
      { members := jsSet (gatherAllKeys ts), name := optName,
        labels := some L, i18n := some M } = .ok u :=
    ⟨_, createTruenum_ok_build
      { members := jsSet (gatherAllKeys ts), name := optName,
        labels := some L, i18n := some M } hndjs hnejs⟩
  obtain ⟨_, _, hu⟩ := createTruenum_ok_inv _ u hcreate
  have hukeys : u.keys = jsSet (gatherAllKeys ts) := by rw [hu]
  have hulabels : u.labels = some L := by rw [hu]
  have hui18n : u.i18n = some M := by rw [hu]
  have huWF := createTruenum_WF _ _ hcreate
  refine ⟨u, ?_, ?_, ?_, ?_⟩
  · have hlen : ¬ ts.length = 0 := by
      intro h0
      exact hne (List.length_eq_zero.mp h0)
    have hcond : ¬ ((jsSet (gatherAllKeys ts)).length ≠
        (gatherAllKeys ts).length) := by
      rw [hjs]
      exact fun h => h rfl
    unfold composeTruenum
    rw [if_neg hlen, if_neg hcond, hLeq, hMeq]
    exact hcreate
  · rw [hukeys]
    exact hjs
  · intro t ht k hk
    rw [Truenum.getLabel]
    have hkmem : k ∈ u.keys := by
      rw [hukeys]
      exact hcover t ht k hk
    have hkey : u.isEnumKey (.str k) = true := (huWF.2.2 k).mpr hkmem
    rw [hkey]
    simp only [if_true]
    rw [hulabels]
    simp only [Option.some_bind]
    rw [hLlook t ht k hk]
  · intro t ht k hk lang
    rw [Truenum.getTranslation]
    have hkmem : k ∈ u.keys := by
      rw [hukeys]
      exact hcover t ht k hk
    have hkey : u.isEnumKey (.str k) = true := (huWF.2.2 k).mpr hkmem
    rw [hkey]
    simp only [if_true]
    rw [hui18n]
    simp only [Option.some_bind]
    obtain ⟨r', hr', hlook⟩ := hMlook t ht k hk
    rw [hr']
    simp only [Option.some_bind]
    rw [hlook lang]

/-! ### Auxiliary facts: substring witnesses, disjointness, error shapes -/

theorem startsWithL_nil : ∀ (l : List Char), startsWithL l [] = true := by
  intro l
  cases l <;> rfl

theorem startsWithL_self : ∀ (l : List Char), startsWithL l l = true := by
  intro l
  induction l with
  | nil => rfl
  | cons c cs ih => simp [startsWithL, ih]

theorem startsWithL_append (p : List Char) :
    ∀ (l suffix : List Char), startsWithL l p = true →
      startsWithL (l ++ suffix) p = true := by
  induction p with
  | nil => intro l suffix _; exact startsWithL_nil (l ++ suffix)
  | cons c ps ih =>
    intro l suffix h
    cases l with
    | nil => simp [startsWithL] at h
    | cons a l' =>
      simp only [List.cons_append, startsWithL, Bool.and_eq_true] at h ⊢
      exact ⟨h.1, ih l' suffix h.2⟩

theorem hasInfixL_append_right : ∀ (a b : List Char),
    hasInfixL (a ++ b) b = true := by
  intro a
  induction a with
  | nil =>
    intro b
    rw [List.nil_append]
    cases b with
    | nil => rfl
    | cons c rest => rw [hasInfixL, if_pos (startsWithL_self (c :: rest))]
  | cons c a' ih =>
    intro b
    rw [List.cons_append, hasInfixL]
    by_cases h : startsWithL (c :: (a' ++ b)) b = true
    · rw [if_pos h]
    · rw [if_neg h]
      exact ih b

theorem hasInfixL_of_startsWith (l p suffix : List Char)
    (h : startsWithL l p = true) : hasInfixL (l ++ suffix) p = true := by
  cases hl : l ++ suffix with
  | nil =>
    rw [hasInfixL]
    have h0 : l = [] := (List.append_eq_nil.mp hl).1
    rw [h0] at h
    exact h
  | cons c rest =>
    rw [hasInfixL]
    have h2 := startsWithL_append p l suffix h
    rw [hl] at h2
    rw [if_pos h2]

theorem strContains_append_right (a b : String) :
    strContains (a ++ b) b = true := by
  rw [strContains]
  exact hasInfixL_append_right a.data b.data

theorem keys_sublist_gather (ts : List Truenum) (t : Truenum) (ht : t ∈ ts) :
    t.keys.Sublist (gatherAllKeys ts) := by
  induction ts with
  | nil => exact absurd ht (List.not_mem_nil t)
  | cons t' rest ih =>
    rw [gatherAllKeys]
    rcases List.mem_cons.mp ht with h | h
    · subst h
      exact List.sublist_append_left t.keys (gatherAllKeys rest)
    · exact (ih h).trans (List.sublist_append_right t'.keys (gatherAllKeys rest))

theorem gather_nodup_iff_pairwise (ts : List Truenum)
    (hWFn : ∀ t ∈ ts, t.keys.Nodup) :
    (gatherAllKeys ts).Nodup ↔
      List.Pairwise (fun a b => ∀ k ∈ a.keys, k ∉ b.keys) ts := by
  induction ts with
  | nil => simp [gatherAllKeys]
  | cons t rest ih =>
    rw [gatherAllKeys, List.nodup_append, List.pairwise_cons,
      ih (fun t' h' => hWFn t' (by simp [h']))]
    constructor
    · rintro ⟨_, h2, h3⟩
      refine ⟨?_, h2⟩
      intro b hb k hk hkb
      exact h3 hk ((mem_gatherAllKeys rest k).mpr ⟨b, hb, hkb⟩)
    · rintro ⟨hR, h2⟩
      refine ⟨hWFn t (by simp), h2, ?_⟩
      intro k hk hkg
      obtain ⟨b, hb, hkb⟩ := (mem_gatherAllKeys rest k).mp hkg
      exact hR b hb k hk hkb

theorem composeTruenum_emptyErr (optName : Option String)
    (optLabels : Option (Rcd String)) (optI18n : Option (Rcd (Rcd String))) :
    composeTruenum [] optName optLabels optI18n = .error (.error
      "composeTruenum: cannot compose empty array of truenums") := rfl

theorem composeTruenum_dupErr (ts : List Truenum)
    (hdup : ¬ (gatherAllKeys ts).Nodup) (optName : Option String)
    (optLabels : Option (Rcd String)) (optI18n : Option (Rcd (Rcd String))) :
    composeTruenum ts optName optLabels optI18n = .error (.error
      "composeTruenum: Duplicate keys found among the truenums") := by
  have hne : ¬ ts.length = 0 := by
    intro h0
    rw [List.length_eq_zero] at h0
    subst h0
    exact hdup (by simp [gatherAllKeys])
  unfold composeTruenum
  rw [if_neg hne,
    if_pos (jsSet_length_ne_of_not_nodup (gatherAllKeys ts) hdup)]

theorem dupMsg_ne_subsetMsg (e : String)
    (h : ("createTruenum: Duplicate keys found. All enum keys must be unique." : String) =
      "subsetTruenum: key \"" ++ e ++ "\" is not a member of parent.") :
    False := by
  have hL : ("createTruenum: Duplicate keys found. All enum keys must be unique." : String).data.head? =
      some 'c' := rfl
  have hR : (("subsetTruenum: key \"" ++ e ++ "\" is not a member of parent." : String).data).head? =
      some 's' := rfl
  have hmid := congrArg (fun s : String => s.data.head?) h
  have hcs : (some 'c' : Option Char) = some 's' :=
    hL.symm.trans (hmid.trans hR)
  exact absurd hcs (by decide)

/-! ### Claim theorems -/

/-- C1: for every valid configuration (non-empty, duplicate-free members),
`createTruenum` succeeds; the result's `keys` equal the input members in
order, its `values` map sends every key in `keys` to itself, and the
`values` map's own key set equals `keys` exactly. -/
theorem createTruenum_keys_values (cfg : TruenumConfig)
    (hne : cfg.members ≠ []) (hnd : cfg.members.Nodup) :
    ∃ t, createTruenum cfg = .ok t ∧ t.keys = cfg.members ∧
      (∀ k ∈ t.keys, rcdLookup t.values k = some k) ∧
      rcdKeys t.values = t.keys := by
  refine ⟨_, createTruenum_ok_build cfg hnd hne, rfl, ?_, ?_⟩
  · intro k hk
    have hk' : k ∈ cfg.members := hk
    show rcdLookup (buildValues cfg.members []) k = some k
    rw [buildValues_lookup, if_pos hk']
  · show rcdKeys (buildValues cfg.members []) = cfg.members
    rw [buildValues_keys cfg.members [] hnd (fun k _ => rfl)]
    rfl

/-- Witness for C1 at the concrete configuration
`{ members := ["APPLE", "BANANA"] }`. -/
theorem createTruenum_keys_values_witness :
    ∃ t, createTruenum { members := ["APPLE", "BANANA"] } = .ok t ∧
      t.keys = ({ members := ["APPLE", "BANANA"] } : TruenumConfig).members ∧
      (∀ k ∈ t.keys, rcdLookup t.values k = some k) ∧
      rcdKeys t.values = t.keys :=
  createTruenum_keys_values { members := ["APPLE", "BANANA"] }
    (by decide) (by decide)

/-- C2: `createTruenum` fails with the empty-members error on every
zero-member configuration, and with the duplicate-key error (whose message
contains the word "Duplicate", identifying that duplicates exist) on every
configuration in which some member value appears more than once. -/
theorem createTruenum_validation (cfg : TruenumConfig) :
    (cfg.members = [] →
      createTruenum cfg = .error (.error
        "createTruenum: members[] cannot be empty")) ∧
    (¬ cfg.members.Nodup →
      createTruenum cfg = .error (.error
        "createTruenum: Duplicate keys found. All enum keys must be unique.") ∧
      strContains
        "createTruenum: Duplicate keys found. All enum keys must be unique."
        "Duplicate" = true) := by
  constructor
  · intro he
    exact createTruenum_empty cfg he
  · intro hdup
    exact ⟨createTruenum_dup cfg hdup, by decide⟩

/-- Witness for C2 at `{ members := [] }` (empty error) and at
`{ members := ["X", "X"] }` (duplicate error). -/
theorem createTruenum_validation_witness :
    (createTruenum { members := [] } = .error (.error
      "createTruenum: members[] cannot be empty")) ∧
    (createTruenum { members := ["X", "X"] } = .error (.error
      "createTruenum: Duplicate keys found. All enum keys must be unique.") ∧
      strContains
        "createTruenum: Duplicate keys found. All enum keys must be unique."
        "Duplicate" = true) := by
  constructor
  · exact (createTruenum_validation { members := [] }).1 rfl
  · exact (createTruenum_validation { members := ["X", "X"] }).2 (by decide)

/-- C3: for every constructed enumeration, the membership test `is` returns
true exactly on the strings belonging to `keys`: true on every key, false
on every other string and on every non-string value.  `is` is a total
boolean function in this model, so it never throws. -/
theorem isMember_spec (cfg : TruenumConfig) (t : Truenum)
    (h : createTruenum cfg = .ok t) :
    ∀ v : JSValue, t.is v = true ↔ ∃ s, v = .str s ∧ s ∈ t.keys := by
  have hWF := createTruenum_WF cfg t h
  intro v
  cases v with
  | str s =>
    constructor
    · intro hs
      exact ⟨s, rfl, (Truenum.is_str_iff t hWF s).mp hs⟩
    · rintro ⟨s', hs', hmem⟩
      cases hs'
      exact (Truenum.is_str_iff t hWF s).mpr hmem
  | num n => simp [Truenum.is, Truenum.isEnumKey]
  | boolV b => simp [Truenum.is, Truenum.isEnumKey]
  | nullV => simp [Truenum.is, Truenum.isEnumKey]
  | undefV => simp [Truenum.is, Truenum.isEnumKey]
  | obj => simp [Truenum.is, Truenum.isEnumKey]

/-- Witness for C3 on the one-member enumeration `["APPLE"]`, instantiated
at the member string, at a foreign string naming an inherited object
property, and at a non-string value. -/
theorem isMember_spec_witness :
    (createTruenum { members := ["APPLE"] } = .ok
      { keys := ["APPLE"], values := [("APPLE", "APPLE")],
        name := none, labels := none, i18n := none }) ∧
    (Truenum.is
      { keys := ["APPLE"], values := [("APPLE", "APPLE")],
        name := none, labels := none, i18n := none } (.str "APPLE") = true ↔
      ∃ s, JSValue.str "APPLE" = .str s ∧ s ∈
        ({ keys := ["APPLE"], values := [("APPLE", "APPLE")],
           name := none, labels := none, i18n := none } : Truenum).keys) ∧
    (Truenum.is
      { keys := ["APPLE"], values := [("APPLE", "APPLE")],
        name := none, labels := none, i18n := none } (.str "toString") = true ↔
      ∃ s, JSValue.str "toString" = .str s ∧ s ∈
        ({ keys := ["APPLE"], values := [("APPLE", "APPLE")],
           name := none, labels := none, i18n := none } : Truenum).keys) ∧
    (Truenum.is
      { keys := ["APPLE"], values := [("APPLE", "APPLE")],
        name := none, labels := none, i18n := none } (.num 3) = true ↔
      ∃ s, JSValue.num 3 = .str s ∧ s ∈
        ({ keys := ["APPLE"], values := [("APPLE", "APPLE")],
           name := none, labels := none, i18n := none } : Truenum).keys) := by
  refine ⟨rfl, ?_, ?_, ?_⟩
  · exact isMember_spec { members := ["APPLE"] } _ rfl (.str "APPLE")
  · exact isMember_spec { members := ["APPLE"] } _ rfl (.str "toString")
  · exact isMember_spec { members := ["APPLE"] } _ rfl (.num 3)

/-- A one-member configuration carrying a translation for the locale `pt`,
which lies outside the fixed eight-locale set. -/
def cfgC4 : TruenumConfig :=
  { members := ["A"], i18n := some [("A", [("pt", "OlaPT")])] }

/-- The enumeration built from `cfgC4`. -/
def enumC4 : Truenum :=
  { keys := ["A"], values := [("A", "A")], name := none, labels := none,
    i18n := some [("A", [("pt", "OlaPT")])] }

/-- The composition of the single source `enumC4` with no overrides. -/
def compC4 : Truenum :=
  { keys := ["A"], values := [("A", "A")], name := none, labels := some [],
    i18n := some [("A", [])] }

/-- C4 counterexample: composing the single source `enumC4` loses the `pt`
translation, because the merge loop only iterates the eight supported
locales — so the claim's "same translation for every key and locale,
including locales outside the fixed eight-locale set" is false. -/
theorem composeSingleton_counterexample :
    createTruenum cfgC4 = .ok enumC4 ∧
    composeTruenum [enumC4] none none none = .ok compC4 ∧
    enumC4.getTranslation "A" "pt" = .ok (some "OlaPT") ∧
    compC4.getTranslation "A" "pt" = .ok none :=
  ⟨rfl, rfl, rfl, rfl⟩

/-- C4 (amended): composing a single-source list with no overrides yields
an enumeration with the same keys, the same label for every key, and the
same translation for every key and every locale belonging to the supported
eight-locale set (translations stored under other locales are dropped). -/
theorem composeSingleton_roundTrip (cfg : TruenumConfig) (E : Truenum)
    (h : createTruenum cfg = .ok E) :
    ∃ u, composeTruenum [E] none none none = .ok u ∧
      u.keys = E.keys ∧
      (∀ k ∈ E.keys, u.getLabel k = E.getLabel k) ∧
      (∀ k ∈ E.keys, ∀ lang ∈ SUPPORTED_LANGS,
        u.getTranslation k lang = E.getTranslation k lang) := by
  have hWF := createTruenum_WF cfg E h
  have hWFs : ∀ t ∈ [E], t.WF := by
    intro t ht
    rw [List.mem_singleton] at ht
    subst ht
    exact hWF
  have hgather : gatherAllKeys [E] = E.keys := by
    simp [gatherAllKeys]
  have hnd : (gatherAllKeys [E]).Nodup := by
    rw [hgather]
    exact hWF.1
  obtain ⟨u, hu, hukeys, hlab, htrans⟩ :=
    composeTruenum_spec [E] hWFs (by simp) hnd none none none
      (fun o ho => absurd ho (by simp)) (fun o ho => absurd ho (by simp))
  refine ⟨u, hu, ?_, ?_, ?_⟩
  · rw [hukeys, hgather]
  · intro k hk
    rw [hlab E (by simp) k hk, Truenum.getLabel_of_mem E hWF k hk]
    simp [optLabelLookup, oOr]
  · intro k hk lang hlang
    rw [htrans E (by simp) k hk lang,
      Truenum.getTranslation_of_mem E hWF k lang hk]
    simp [optI18nLookup, oOr, hlang]

/-- A one-member enumeration with a label and an `en` translation, used to
instantiate the amended C4. -/
def cfgC4w : TruenumConfig :=
  { members := ["A"], labels := some [("A", "LabelA")],
    i18n := some [("A", [("en", "EnA")])] }

/-- The enumeration built from `cfgC4w`. -/
def enumC4w : Truenum :=
  { keys := ["A"], values := [("A", "A")], name := none,
    labels := some [("A", "LabelA")], i18n := some [("A", [("en", "EnA")])] }

/-- Witness for the amended C4 at the concrete enumeration `enumC4w`. -/
theorem composeSingleton_roundTrip_witness :
    ∃ u, composeTruenum [enumC4w] none none none = .ok u ∧
      u.keys = enumC4w.keys ∧
      (∀ k ∈ enumC4w.keys, u.getLabel k = enumC4w.getLabel k) ∧
      (∀ k ∈ enumC4w.keys, ∀ lang ∈ SUPPORTED_LANGS,
        u.getTranslation k lang = enumC4w.getTranslation k lang) :=
  composeSingleton_roundTrip cfgC4w enumC4w rfl

/-- C5: `subsetTruenum` resolves each chosen key's label by taking the
caller-supplied override label when present and the parent's label
otherwise. -/
theorem subsetLabelOverridePrecedence (cfg : TruenumConfig)
    (parent : Truenum) (hp : createTruenum cfg = .ok parent)
    (chosen : List String) (hch : ∀ k ∈ chosen, k ∈ parent.keys)
    (hnd : chosen.Nodup) (hne : chosen ≠ []) (optName : Option String)
    (ovL : Option (Rcd String)) (hovL : ∀ o, ovL = some o → RcdWF o) :
    ∃ u, subsetTruenum parent chosen optName ovL none = .ok u ∧
      u.keys = chosen ∧
      ∀ k ∈ chosen, u.getLabel k =
        .ok (oOr (optLabelLookup ovL k) (labelOf parent k)) :=
  subsetTruenum_spec cfg parent hp chosen hch hnd hne optName ovL hovL

/-- The parent enumeration of the C5 example, with labels
`RED ↦ "Parent Red"`, `BLUE ↦ "Parent Blue"`. -/
def parentCfgC5 : TruenumConfig :=
  { members := ["RED", "BLUE"],
    labels := some [("RED", "Parent Red"), ("BLUE", "Parent Blue")] }

/-- The enumeration built from `parentCfgC5`. -/
def parentC5 : Truenum :=
  { keys := ["RED", "BLUE"], values := [("RED", "RED"), ("BLUE", "BLUE")],
    name := none,
    labels := some [("RED", "Parent Red"), ("BLUE", "Parent Blue")],
    i18n := none }

/-- The subset built over `["RED", "BLUE"]` with the override
`{RED ↦ "Sub Red"}`. -/
def subC5 : Truenum :=
  { keys := ["RED", "BLUE"], values := [("RED", "RED"), ("BLUE", "BLUE")],
    name := none,
    labels := some [("RED", "Sub Red"), ("BLUE", "Parent Blue")],
    i18n := some [("RED", []), ("BLUE", [])] }

/-- Witness for C5 at the claim's own example: the override wins for RED,
the parent label is inherited for BLUE. -/
theorem subsetLabelOverridePrecedence_witness :
    subsetTruenum parentC5 ["RED", "BLUE"] none
      (some [("RED", "Sub Red")]) none = .ok subC5 ∧
    subC5.getLabel "RED" = .ok (some "Sub Red") ∧
    subC5.getLabel "BLUE" = .ok (some "Parent Blue") := by
  obtain ⟨u, hu, hukeys, hlab⟩ :=
    subsetLabelOverridePrecedence parentCfgC5 parentC5 rfl ["RED", "BLUE"]
      (by decide) (by decide) (by decide) none (some [("RED", "Sub Red")])
      (fun o ho => by
        cases ho
        unfold RcdWF
        decide)
  have hueq : u = subC5 := by
    have h2 : subsetTruenum parentC5 ["RED", "BLUE"] none
        (some [("RED", "Sub Red")]) none = .ok subC5 := rfl
    rw [hu] at h2
    exact Except.ok.inj h2
  subst hueq
  refine ⟨hu, ?_, ?_⟩
  · rw [hlab "RED" (by decide)]
    rfl
  · rw [hlab "BLUE" (by decide)]
    rfl

/-- A one-member source storing, besides a supported `en` translation, a
translation under the unsupported locale `pt`. -/
def fruitCfgC6x : TruenumConfig :=
  { members := ["APPLE"],
    i18n := some [("APPLE", [("en", "AppleEN"), ("pt", "KeptPT")])] }

/-- The enumeration built from `fruitCfgC6x`. -/
def fruitC6x : Truenum :=
  { keys := ["APPLE"], values := [("APPLE", "APPLE")], name := none,
    labels := none,
    i18n := some [("APPLE", [("en", "AppleEN"), ("pt", "KeptPT")])] }

/-- The composition of `[fruitC6x]` under the override
`{APPLE ↦ {fr ↦ "X"}}`. -/
def compC6x : Truenum :=
  { keys := ["APPLE"], values := [("APPLE", "APPLE")], name := none,
    labels := some [],
    i18n := some [("APPLE", [("en", "AppleEN"), ("fr", "X")])] }

/-- C6 counterexample: with no override for the pair (APPLE, pt), the
source's `pt` translation is not kept after composition — the merge loop
iterates only the eight supported locales — refuting "source values kept
otherwise" read over all locales. -/
theorem composeTranslation_counterexample :
    createTruenum fruitCfgC6x = .ok fruitC6x ∧
    composeTruenum [fruitC6x] none none
      (some [("APPLE", [("fr", "X")])]) = .ok compC6x ∧
    fruitC6x.getTranslation "APPLE" "pt" = .ok (some "KeptPT") ∧
    compC6x.getTranslation "APPLE" "pt" = .ok none :=
  ⟨rfl, rfl, rfl, rfl⟩

/-- C6 (amended): for disjoint sources, `composeTruenum` resolves each
translation per key per locale with the caller-supplied override winning
over any source value, and source values kept otherwise for locales in the
supported eight-locale set (source values under other locales are dropped
unless supplied via the override). -/
theorem composeTranslationPrecedence (ts : List Truenum)
    (hWF : ∀ t ∈ ts, t.WF) (hne : ts ≠ [])
    (hnd : (gatherAllKeys ts).Nodup) (ov : Rcd (Rcd String))
    (h1 : RcdWF ov) (h2 : ∀ p ∈ ov, RcdWF p.2)
    (h3 : ∀ p ∈ ov, p.1 ∈ gatherAllKeys ts) (optName : Option String) :
    ∃ u, composeTruenum ts optName none (some ov) = .ok u ∧
      ∀ t ∈ ts, ∀ k ∈ t.keys, ∀ lang, u.getTranslation k lang =
        .ok (oOr ((rcdLookup ov k).bind (fun tr => rcdLookup tr lang))
          (if lang ∈ SUPPORTED_LANGS then transOf t k lang else none)) := by
  obtain ⟨u, hu, _, _, htrans⟩ :=
    composeTruenum_spec ts hWF hne hnd optName none (some ov)
      (fun o ho => absurd ho (by simp))
      (fun o ho => by
        cases ho
        exact ⟨h1, h2, h3⟩)
  refine ⟨u, hu, ?_⟩
  intro t ht k hk lang
  rw [htrans t ht k hk lang]
  rfl

/-- The Fruit source of the C6 example. -/
def fruitCfgC6 : TruenumConfig :=
  { members := ["APPLE"],
    i18n := some [("APPLE", [("en", "AppleEN"), ("fr", "PommeFR")])] }

/-- The enumeration built from `fruitCfgC6`. -/
def fruitC6 : Truenum :=
  { keys := ["APPLE"], values := [("APPLE", "APPLE")], name := none,
    labels := none,
    i18n := some [("APPLE", [("en", "AppleEN"), ("fr", "PommeFR")])] }

/-- The Veg source of the C6 example. -/
def vegCfgC6 : TruenumConfig :=
  { members := ["CARROT"],
    i18n := some [("CARROT", [("en", "CarrotEN"), ("de", "KarotteDE")])] }

/-- The enumeration built from `vegCfgC6`. -/
def vegC6 : Truenum :=
  { keys := ["CARROT"], values := [("CARROT", "CARROT")], name := none,
    labels := none,
    i18n := some [("CARROT", [("en", "CarrotEN"), ("de", "KarotteDE")])] }

/-- The i18n override of the C6 example. -/
def ovC6 : Rcd (Rcd String) :=
  [("APPLE", [("fr", "PommeFR-Override")])]

/-- The composition of `[fruitC6, vegC6]` under `ovC6`. -/
def compC6 : Truenum :=
  { keys := ["APPLE", "CARROT"],
    values := [("APPLE", "APPLE"), ("CARROT", "CARROT")], name := none,
    labels := some [],
    i18n := some
      [("APPLE", [("en", "AppleEN"), ("fr", "PommeFR-Override")]),
       ("CARROT", [("en", "CarrotEN"), ("de", "KarotteDE")])] }

/-- Witness for the amended C6 at the claim's own Fruit/Veg example. -/
theorem composeTranslationPrecedence_witness :
    composeTruenum [fruitC6, vegC6] none none (some ovC6) = .ok compC6 ∧
    compC6.getTranslation "APPLE" "en" = .ok (some "AppleEN") ∧
    compC6.getTranslation "APPLE" "fr" = .ok (some "PommeFR-Override") ∧
    compC6.getTranslation "CARROT" "de" = .ok (some "KarotteDE") := by
  have hWFs : ∀ t ∈ [fruitC6, vegC6], t.WF := by
    intro t ht
    rcases List.mem_cons.mp ht with h | h
    · subst h
      exact createTruenum_WF fruitCfgC6 fruitC6 rfl
    · rw [List.mem_singleton] at h
      subst h
      exact createTruenum_WF vegCfgC6 vegC6 rfl
  obtain ⟨u, hu, htrans⟩ :=
    composeTranslationPrecedence [fruitC6, vegC6] hWFs (by simp) (by decide)
      ovC6 (by unfold RcdWF; decide)
      (by simp only [RcdWF]; decide) (by decide) none
  have hueq : u = compC6 := by
    have h2 : composeTruenum [fruitC6, vegC6] none none (some ovC6) =
        .ok compC6 := rfl
    rw [hu] at h2
    exact Except.ok.inj h2
  subst hueq
  refine ⟨hu, ?_, ?_, ?_⟩
  · rw [htrans fruitC6 (by simp) "APPLE" (by decide) "en"]
    rfl
  · rw [htrans fruitC6 (by simp) "APPLE" (by decide) "fr"]
    rfl
  · rw [htrans vegC6 (by simp) "CARROT" (by decide) "de"]
    rfl

/-- C7: `composeTruenum` fails with the empty-composition error on the
empty source list, fails with the duplicate-key error whenever some key
appears in more than one source enumeration (each source being internally
duplicate-free), and returns an enumeration only when the sources are
pairwise disjoint. -/
theorem composeTruenum_validation (ts : List Truenum)
    (optName : Option String) (optLabels : Option (Rcd String))
    (optI18n : Option (Rcd (Rcd String))) :
    (ts = [] → composeTruenum ts optName optLabels optI18n = .error (.error
      "composeTruenum: cannot compose empty array of truenums")) ∧
    ((∀ t ∈ ts, t.keys.Nodup) →
      ¬ List.Pairwise (fun a b => ∀ k ∈ a.keys, k ∉ b.keys) ts →
      composeTruenum ts optName optLabels optI18n = .error (.error
        "composeTruenum: Duplicate keys found among the truenums")) ∧
    (∀ u, composeTruenum ts optName optLabels optI18n = .ok u →
      ts ≠ [] ∧ List.Pairwise (fun a b => ∀ k ∈ a.keys, k ∉ b.keys) ts) := by
  refine ⟨?_, ?_, ?_⟩
  · intro he
    subst he
    exact composeTruenum_emptyErr optName optLabels optI18n
  · intro hWFn hpair
    have hdup : ¬ (gatherAllKeys ts).Nodup := fun hnd =>
      hpair ((gather_nodup_iff_pairwise ts hWFn).mp hnd)
    exact composeTruenum_dupErr ts hdup optName optLabels optI18n
  · intro u hok
    have he : ts ≠ [] := by
      intro h0
      subst h0
      rw [composeTruenum_emptyErr optName optLabels optI18n] at hok
      simp at hok
    have hdup : (gatherAllKeys ts).Nodup := by
      by_contra hd
      rw [composeTruenum_dupErr ts hd optName optLabels optI18n] at hok
      simp at hok
    have hWFn : ∀ t ∈ ts, t.keys.Nodup := fun t ht =>
      List.Nodup.sublist (keys_sublist_gather ts t ht) hdup
    exact ⟨he, (gather_nodup_iff_pairwise ts hWFn).mp hdup⟩

/-- The first composition source of the C7 example. -/
def fruitC7 : Truenum :=
  { keys := ["APPLE", "BANANA"],
    values := [("APPLE", "APPLE"), ("BANANA", "BANANA")], name := none,
    labels := none, i18n := none }

/-- The second, overlapping composition source of the C7 example. -/
def dupC7 : Truenum :=
  { keys := ["APPLE", "ORANGE"],
    values := [("APPLE", "APPLE"), ("ORANGE", "ORANGE")], name := none,
    labels := none, i18n := none }

/-- Witness for C7: the empty list raises the empty-composition error, and
the overlapping sources `{APPLE, BANANA}` / `{APPLE, ORANGE}` raise the
duplicate-key error. -/
theorem composeTruenum_validation_witness :
    (composeTruenum [] none none none = .error (.error
      "composeTruenum: cannot compose empty array of truenums")) ∧
    (composeTruenum [fruitC7, dupC7] none none none = .error (.error
      "composeTruenum: Duplicate keys found among the truenums")) ∧
    createTruenum { members := ["APPLE", "BANANA"] } = .ok fruitC7 ∧
    createTruenum { members := ["APPLE", "ORANGE"] } = .ok dupC7 := by
  refine ⟨(composeTruenum_validation [] none none none).1 rfl, ?_, rfl, rfl⟩
  exact (composeTruenum_validation [fruitC7, dupC7] none none none).2.1
    (by decide) (by decide)

/-- C8 counterexample: supplying the empty string as the custom message
does not make the thrown error carry it — `msg || default` treats the
empty string as falsy, so the default message is thrown instead. -/
theorem assertExhaustive_counterexample :
    assertExhaustive (.str "X") (some "") = .error (.error
      "Non-exhaustive switch reached: X") ∧
    ("Non-exhaustive switch reached: X" : String) ≠ "" :=
  ⟨rfl, by decide⟩

/-- C8 (amended): `assertExhaustive` always throws; a non-empty custom
message is carried verbatim, while with no message (or an empty one) the
thrown message is the default non-exhaustiveness pattern, which contains
both the fixed prefix and the stringified offending value. -/
theorem assertExhaustive_spec (x : JSValue) (msg : Option String) :
    (∃ e, assertExhaustive x msg = .error e) ∧
    (∀ m, msg = some m → m ≠ "" →
      assertExhaustive x msg = .error (.error m)) ∧
    ((msg = none ∨ msg = some "") →
      assertExhaustive x msg = .error (.error
        ("Non-exhaustive switch reached: " ++ jsToString x)) ∧
      strContains ("Non-exhaustive switch reached: " ++ jsToString x)
        (jsToString x) = true ∧
      strContains ("Non-exhaustive switch reached: " ++ jsToString x)
        "Non-exhaustive" = true) := by
  refine ⟨⟨_, rfl⟩, ?_, ?_⟩
  · intro m hm hnem
    subst hm
    simp only [assertExhaustive, jsStringOr]
    rw [if_neg hnem]
  · intro hcase
    refine ⟨?_, ?_, ?_⟩
    · rcases hcase with h | h <;> subst h <;> rfl
    · exact strContains_append_right "Non-exhaustive switch reached: "
        (jsToString x)
    · show hasInfixL
        ("Non-exhaustive switch reached: ".data ++ (jsToString x).data)
        "Non-exhaustive".data = true
      exact hasInfixL_of_startsWith "Non-exhaustive switch reached: ".data
        "Non-exhaustive".data (jsToString x).data (by decide)

/-- Witness for the amended C8: a non-empty custom message is carried, and
with no message the default pattern is thrown. -/
theorem assertExhaustive_spec_witness :
    (∃ e, assertExhaustive (.num 3) (some "boom") = .error e) ∧
    assertExhaustive (.num 3) (some "boom") = .error (.error "boom") ∧
    assertExhaustive (.num 3) none = .error (.error
      ("Non-exhaustive switch reached: " ++ jsToString (.num 3))) := by
  obtain ⟨h1, h2, _⟩ := assertExhaustive_spec (.num 3) (some "boom")
  obtain ⟨_, _, g3⟩ := assertExhaustive_spec (.num 3) none
  exact ⟨h1, h2 "boom" rfl (by decide), (g3 (Or.inl rfl)).1⟩

/-- C9: when every entry of the chosen list belongs to the parent but some
entry repeats, `subsetTruenum` passes its per-key membership validation and
then fails with the duplicate-key error raised by the delegated
`createTruenum` — never with the not-in-parent error. -/
theorem subsetDuplicateDelegation (cfg : TruenumConfig) (parent : Truenum)
    (hp : createTruenum cfg = .ok parent) (chosen : List String)
    (hch : ∀ k ∈ chosen, k ∈ parent.keys) (hdup : ¬ chosen.Nodup)
    (optName : Option String) (optLabels : Option (Rcd String))
    (optI18n : Option (Rcd (Rcd String)))
    (hovI : ∀ o, optI18n = some o → ∀ p ∈ o, p.1 ∈ chosen) :
    subsetTruenum parent chosen optName optLabels optI18n = .error (.error
      "createTruenum: Duplicate keys found. All enum keys must be unique.") ∧
    ∀ e, subsetTruenum parent chosen optName optLabels optI18n ≠
      .error (.error
        ("subsetTruenum: key \"" ++ e ++ "\" is not a member of parent.")) := by
  have h1 := subsetTruenum_dup cfg parent hp chosen hch hdup optName
    optLabels optI18n hovI
  refine ⟨h1, ?_⟩
  intro e h
  rw [h1] at h
  have h3 : ("createTruenum: Duplicate keys found. All enum keys must be unique." : String) =
      "subsetTruenum: key \"" ++ e ++ "\" is not a member of parent." :=
    JSError.error.inj (Except.error.inj h)
  exact dupMsg_ne_subsetMsg e h3

/-- The parent configuration of the C9 witness. -/
def parentCfgC9 : TruenumConfig := { members := ["RED", "BLUE"] }

/-- The enumeration built from `parentCfgC9`. -/
def parentC9 : Truenum :=
  { keys := ["RED", "BLUE"], values := [("RED", "RED"), ("BLUE", "BLUE")],
    name := none, labels := none, i18n := none }

/-- Witness for C9: the chosen list `["RED", "RED"]` of parent members
makes `subsetTruenum` fail with the delegated duplicate-key error. -/
theorem subsetDuplicateDelegation_witness :
    createTruenum parentCfgC9 = .ok parentC9 ∧
    subsetTruenum parentC9 ["RED", "RED"] none none none = .error (.error
      "createTruenum: Duplicate keys found. All enum keys must be unique.") := by
  refine ⟨rfl, ?_⟩
  exact (subsetDuplicateDelegation parentCfgC9 parentC9 rfl ["RED", "RED"]
    (by decide) (by decide) none none none
    (fun o ho => absurd ho (by simp))).1

/-- The one-member configuration of the C10 scenario. -/
def cfgC10 : TruenumConfig := { members := ["A"] }

/-- The enumeration built from `cfgC10`. -/
def enumC10 : Truenum :=
  { keys := ["A"], values := [("A", "A")], name := none, labels := none,
    i18n := none }

/-- C10: an i18n override entry whose key (`"B"`) is not among the result's
member keys makes both `composeTruenum` and `subsetTruenum` throw a runtime
`TypeError` — `Object.assign` into the missing per-key record — rather than
any of the library's own documented error kinds; the stray entry is neither
ignored nor reported as an invalid key. -/
theorem strayI18nOverrideTypeError :
    createTruenum cfgC10 = .ok enumC10 ∧
    composeTruenum [enumC10] none none (some [("B", [("en", "x")])]) =
      .error (.typeError "Cannot convert undefined or null to object") ∧
    subsetTruenum enumC10 ["A"] none none (some [("B", [("en", "x")])]) =
      .error (.typeError "Cannot convert undefined or null to object") :=
  ⟨rfl, rfl, rfl⟩
